import Mathlib

/-!
Verification of the palette-reduction transform (`src/reduction/palette.rs`).

The Rust source is shallowly embedded below: `optimized_palette` and its
helpers `do_palette_reduction`, `palette_map_to_byte_map` and
`reordered_palette` are translated definition by definition.  Machine bytes
are modelled as `Nat` (with explicit `% 256` where the source performs a
truncating cast), fixed 256-entry arrays as functions out of `Nat`, and the
insertion-ordered `IndexMap` as an association list extended only at the tail.
-/

set_option maxHeartbeats 1000000

/-- An RGBA palette entry (`rgb::RGBA8`); each channel is a byte. -/
structure RGBA8 where
  r : Nat
  g : Nat
  b : Nat
  a : Nat
deriving DecidableEq, Repr

/-- PNG bit depths relevant to indexed images (`BitDepth`). -/
inductive BitDepth where
  | One
  | Two
  | Four
  | Eight
deriving DecidableEq, Repr

/-- PNG color types (`ColorType`); only `Indexed` carries a palette. -/
inductive ColorType where
  | Grayscale
  | RGB
  | GrayscaleAlpha
  | RGBA
  | Indexed (palette : List RGBA8)
deriving DecidableEq, Repr

/-- Header data (`IhdrData`).  Modelled from the spec: the concrete header
struct is outside the given source file; the spec only requires that all
header fields other than the color type (which holds the palette) are copied
unchanged, so the remaining fields are rendered as width, height and the
interlacing flag alongside the bit depth. -/
structure IhdrData where
  color_type : ColorType
  bit_depth : BitDepth
  width : Nat
  height : Nat
  interlaced : Bool
deriving DecidableEq, Repr

/-- The image value (`PngImage`): header, raw pixel bytes and auxiliary
chunks.  Modelled from the spec: the auxiliary metadata is a mapping from a
chunk tag to an opaque byte sequence; we render the `IndexMap` of chunks as an
association list whose `insert` replaces the value of an existing key in
place. -/
structure PngImage where
  ihdr : IhdrData
  data : List Nat
  aux_headers : List (String × List Nat)
deriving DecidableEq, Repr

/-- `aux_headers.get(tag)`: first value stored under the key. -/
def auxGet (hs : List (String × List Nat)) (k : String) : Option (List Nat) :=
  (hs.find? (fun p => p.1 == k)).map Prod.snd

/-- `aux_headers.insert(tag, v)`: replace the value at an existing key in
place (preserving its position, as `IndexMap::insert` does), else append. -/
def auxInsert (hs : List (String × List Nat)) (k : String) (v : List Nat) :
    List (String × List Nat) :=
  if hs.any (fun p => p.1 == k) then hs.map (fun p => if p.1 == k then (k, v) else p)
  else hs ++ [(k, v)]

/-- `RGBA8::new(0, 0, 0, 255)`, the opaque-black default. -/
def blackColor : RGBA8 := ⟨0, 0, 0, 255⟩

/-- `palette.get(i).unwrap_or(RGBA8::new(0,0,0,255))`: palette lookup with
out-of-range indices resolving to opaque black. -/
def resolvedColor (palette : List RGBA8) (i : Nat) : RGBA8 :=
  palette.getD i blackColor

/-- The sort key `color_val` inside `optimized_palette`:
`((a as i32) << 18) - r*299 - g*587 - b*114` (no i32 overflow is possible, so
`Int` is a faithful model). -/
def colorVal (palette : List RGBA8) (i : Nat) : Int :=
  let color := resolvedColor palette i
  (color.a : Int) * 2 ^ 18 - (color.r : Int) * 299 - (color.g : Int) * 587 -
    (color.b : Int) * 114

/-- The packed sub-indices of one data byte, in the order the scanner marks
them (`byte & 0x0F` then `byte >> 4`, etc.).  Depth `One` is unreachable in
the source (`unreachable!`): `optimized_palette` returns before scanning. -/
def subIndices : BitDepth → Nat → List Nat
  | .Eight, b => [b]
  | .Four, b => [b % 16, b / 16]
  | .Two, b => [b % 4, b / 4 % 4, b / 16 % 4, b / 64]
  | .One, _ => []

/-- Mark the sub-indices of one byte in the `used` table. -/
def markUsed (d : BitDepth) (u : Nat → Bool) (b : Nat) : Nat → Bool :=
  (subIndices d b).foldl (fun u i => fun x => if x = i then true else u x) u

/-- The `used` table after scanning all data bytes. -/
def computeUsed (d : BitDepth) (data : List Nat) : Nat → Bool :=
  data.foldl (markUsed d) (fun _ => false)

/-- The effective color assigned to index `i` during dedup: the resolved
color, with r/g/b forced to 0 when `optimize_alpha` is set and alpha is 0. -/
def effColor (palette : List RGBA8) (optimize_alpha : Bool) (i : Nat) : RGBA8 :=
  if optimize_alpha = true ∧ (resolvedColor palette i).a = 0 then
    { resolvedColor palette i with r := 0, g := 0, b := 0 }
  else resolvedColor palette i

/-- The comparator passed to `sort_by` (ascending `color_val`). -/
def candRel (palette : List RGBA8) (x y : Nat × Bool) : Prop :=
  colorVal palette x.1 ≤ colorVal palette y.1

instance candRel_decidable (palette : List RGBA8) : DecidableRel (candRel palette) :=
  fun x y => inferInstanceAs (Decidable (colorVal palette x.1 ≤ colorVal palette y.1))

instance candRel_total (palette : List RGBA8) : IsTotal (Nat × Bool) (candRel palette) :=
  ⟨fun _ _ => le_total _ _⟩

instance candRel_trans (palette : List RGBA8) : IsTrans (Nat × Bool) (candRel palette) :=
  ⟨fun _ _ _ => le_trans⟩

/-- `used.iter().enumerate().collect()` followed by the stable
`sort_by(color_val cmp)`.  Rust's driver sort is stable; the stable sort of a
list by a total preorder is unique, so it is modelled by insertion sort. -/
def sortedCandidates (palette : List RGBA8) (used : Nat → Bool) : List (Nat × Bool) :=
  ((List.range 256).map (fun i => (i, used i))).insertionSort (candRel palette)

/-- The candidate list after possibly pushing the background index: the
`bKGD` chunk's first byte is appended, flagged used, when not already used. -/
def candidateList (aux : List (String × List Nat)) (palette : List RGBA8)
    (used : Nat → Bool) : List (Nat × Bool) :=
  let sorted := sortedCandidates palette used
  match (auxGet aux "bKGD").bind List.head? with
  | some idx => if used idx then sorted else sorted ++ [(idx, true)]
  | none => sorted

/-- State of the dedup loop: `palette_map`, the insertion-ordered
`seen` map, and `next_index`. -/
structure BState where
  pmap : Nat → Option Nat
  seen : List (RGBA8 × Nat)
  next : Nat

/-- `seen.entry(color)` lookup in the association list. -/
def seenLookup : List (RGBA8 × Nat) → RGBA8 → Option Nat
  | [], _ => none
  | (c, j) :: rest, c' => if c' = c then some j else seenLookup rest c'

/-- Initial loop state: empty `palette_map`, empty `seen`, `next_index = 0`. -/
def initState : BState := ⟨fun _ => none, [], 0⟩

/-- One iteration of the dedup loop.  `next_index as u8` is modelled as
`st.next % 256` (the `u16` counter itself cannot overflow). -/
def buildStep (palette : List RGBA8) (optimize_alpha : Bool) (st : BState)
    (cand : Nat × Bool) : BState :=
  if cand.2 then
    let color := effColor palette optimize_alpha cand.1
    match seenLookup st.seen color with
    | some j => { st with pmap := fun x => if x = cand.1 then some j else st.pmap x }
    | none =>
      { pmap := fun x => if x = cand.1 then some (st.next % 256) else st.pmap x
        seen := st.seen ++ [(color, st.next % 256)]
        next := st.next + 1 }
  else st

/-- The whole dedup loop over a candidate list. -/
def runBuild (palette : List RGBA8) (optimize_alpha : Bool)
    (l : List (Nat × Bool)) : BState :=
  l.foldl (buildStep palette optimize_alpha) initState

/-- The per-depth byte translation table.  `u8` shifts truncate, hence the
`% 256`; `x | y` is `Nat.lor`.  The `_ => {}` arm of the source leaves the
table all zeros for other depths. -/
def byteMapFor (d : BitDepth) (pmap : Nat → Option Nat) : Nat → Nat :=
  match d with
  | .Eight => fun b => (pmap b).getD 0
  | .Four => fun b =>
      Nat.lor ((pmap (b % 16)).getD 0) ((pmap (b / 16)).getD 0 * 16 % 256)
  | .Two => fun b =>
      Nat.lor
        (Nat.lor
          (Nat.lor ((pmap (b % 4)).getD 0) ((pmap (b / 4 % 4)).getD 0 * 4 % 256))
          ((pmap (b / 16 % 4)).getD 0 * 16 % 256))
        ((pmap (b / 64)).getD 0 * 64 % 256)
  | .One => fun _ => 0

/-- The identity test opening `palette_map_to_byte_map`:
`palette_map[i].map_or(true, |to| to == i as u8)` for all `i` in `0..256`. -/
def identityMap (pmap : Nat → Option Nat) : Bool :=
  (List.range 256).all fun i =>
    match pmap i with
    | none => true
    | some j => j == i % 256

/-- `palette_map_to_byte_map`: `None` when the mapping is the identity on its
defined entries, otherwise the byte translation table. -/
def palette_map_to_byte_map (d : BitDepth) (pmap : Nat → Option Nat) :
    Option (Nat → Nat) :=
  if identityMap pmap then none else some (byteMapFor d pmap)

/-- `reordered_palette`: a `max_index + 1`-long array of opaque black,
overwritten at `map_to` with the original color for each mapped entry of the
zip of the palette with the 256-slot map. -/
def reordered_palette (palette : List RGBA8) (pmap : Nat → Option Nat) :
    List RGBA8 :=
  let maxIndex := ((List.range 256).filterMap pmap).foldl max 0
  (palette.zip ((List.range 256).map pmap)).foldl
    (fun np p => match p.2 with | some m => np.set m p.1 | none => np)
    (List.replicate (maxIndex + 1) blackColor)

/-- The `bKGD` rewrite in `do_palette_reduction`: when the chunk exists, has a
first byte, and that byte has a mapping, its value becomes the one-byte new
index; otherwise the chunks are left unchanged. -/
def updateBkgd (aux : List (String × List Nat)) (pmap : Nat → Option Nat) :
    List (String × List Nat) :=
  match auxGet aux "bKGD" with
  | none => aux
  | some bs =>
    match bs.head? with
    | none => aux
    | some idx =>
      match pmap idx with
      | some m => auxInsert aux "bKGD" [m]
      | none => aux

/-- `do_palette_reduction`: remap every data byte, rewrite the palette and the
background chunk, keep every other field. -/
def do_palette_reduction (png : PngImage) (palette : List RGBA8)
    (pmap : Nat → Option Nat) : Option PngImage :=
  match palette_map_to_byte_map png.ihdr.bit_depth pmap with
  | none => none
  | some byte_map =>
    some
      { ihdr :=
          { png.ihdr with
            color_type := ColorType.Indexed (reordered_palette palette pmap) }
        data := png.data.map (fun b => byte_map b)
        aux_headers := updateBkgd png.aux_headers pmap }

/-- `optimized_palette`: the whole transform. -/
def optimized_palette (png : PngImage) (optimize_alpha : Bool) : Option PngImage :=
  match png.ihdr.color_type with
  | ColorType.Indexed palette =>
    if png.ihdr.bit_depth = BitDepth.One then none
    else
      let used := computeUsed png.ihdr.bit_depth png.data
      let st := runBuild palette optimize_alpha (candidateList png.aux_headers palette used)
      do_palette_reduction png palette st.pmap
  | _ => none

/-! Derived notions used to state and prove the claims. -/

/-- The indices of the used-flagged candidates, in list order. -/
def trues (l : List (Nat × Bool)) : List Nat :=
  (l.filter (fun c => c.2)).map Prod.fst

/-- The candidate list before sorting: `used.iter().enumerate()`. -/
def preSort (used : Nat → Bool) : List (Nat × Bool) :=
  (List.range 256).map (fun i => (i, used i))

/-- Decoding one packed pixel: unpack field `k` of byte `b` under depth `d`
and resolve it in the palette, out-of-range lookups giving opaque black. -/
def decodePixel (palette : List RGBA8) (d : BitDepth) (b k : Nat) : RGBA8 :=
  resolvedColor palette ((subIndices d b).getD k 0)

/-- The sort key as a function of a color value. -/
def keyOf (c : RGBA8) : Int :=
  (c.a : Int) * 2 ^ 18 - (c.r : Int) * 299 - (c.g : Int) * 587 - (c.b : Int) * 114

/-- The largest palette-bounds index mapped to compact index `j` (the last
writer in `reordered_palette`'s loop). -/
def lastInBoundsWriter (palette : List RGBA8) (pmap : Nat → Option Nat) (j : Nat) :
    Option Nat :=
  ((List.range palette.length).filter (fun i => pmap i = some j)).getLast?

/-- The distinct effective color assigned to compact index `j` (the key of
the `j`-th entry of the insertion-ordered `seen` map). -/
def classColor (st : BState) (j : Nat) : RGBA8 :=
  (st.seen.getD j (blackColor, 0)).1

/-- Invariants of the dedup-loop state. -/
structure GoodB (palette : List RGBA8) (oa : Bool) (st : BState) : Prop where
  snd_range : st.seen.map Prod.snd = List.range st.next
  keys_nodup : (st.seen.map Prod.fst).Nodup
  map_seen : ∀ i j, st.pmap i = some j →
    seenLookup st.seen (effColor palette oa i) = some j
  surj : ∀ j, j < st.next → ∃ i, st.pmap i = some j
  dom_small : ∀ i j, st.pmap i = some j → i < 256

/-- Relational facts tying the state before and after folding a candidate
list whose used-flagged indices are `ts` through `buildStep`. -/
structure BuildRel (palette : List RGBA8) (oa : Bool) (ts : List Nat)
    (st st' : BState) : Prop where
  good : GoodB palette oa st'
  covers : ∀ i ∈ ts, st'.pmap i ≠ none
  mono : ∀ i j, st.pmap i = some j → st'.pmap i = some j
  next_le : st'.next ≤ st.next + ts.length
  le_next : st.next ≤ st'.next
  dom_from : ∀ i j, st'.pmap i = some j → st.pmap i ≠ none ∨ i ∈ ts
  seen_ext : ∃ t, st'.seen = st.seen ++ t
  vacants : ∃ ws : List Nat, ws.Sublist ts ∧
    (st'.seen.drop st.seen.length).map Prod.fst = ws.map (effColor palette oa)

/-! ### Concrete example images (used to instantiate the theorems) -/

/-- A depth-8 indexed image with an unsorted palette and a background chunk
referencing an index unused by the pixel data. -/
def examplePng : PngImage :=
  { ihdr := { color_type := ColorType.Indexed [⟨200, 0, 0, 255⟩, ⟨0, 0, 255, 255⟩],
              bit_depth := BitDepth.Eight, width := 1, height := 1, interlaced := false }
    data := [1]
    aux_headers := [("bKGD", [0]), ("tEXt", [1, 2, 3])] }

/-- The output `optimized_palette` produces for `examplePng`. -/
def exampleOut : PngImage :=
  { ihdr := { color_type := ColorType.Indexed [⟨0, 0, 255, 255⟩, ⟨200, 0, 0, 255⟩],
              bit_depth := BitDepth.Eight, width := 1, height := 1, interlaced := false }
    data := [0]
    aux_headers := [("bKGD", [1]), ("tEXt", [1, 2, 3])] }

/-- A depth-8 image using two fully transparent entries with different RGB. -/
def transparentPng : PngImage :=
  { ihdr := { color_type := ColorType.Indexed [⟨10, 20, 30, 0⟩, ⟨40, 50, 60, 0⟩],
              bit_depth := BitDepth.Eight, width := 2, height := 1, interlaced := false }
    data := [0, 1]
    aux_headers := [] }

/-- The output `optimized_palette` produces for `transparentPng` with the
alpha flag set: one entry whose color is the original RGB of the last
transparent entry, not `{0,0,0,0}`. -/
def transparentOut : PngImage :=
  { ihdr := { color_type := ColorType.Indexed [⟨40, 50, 60, 0⟩],
              bit_depth := BitDepth.Eight, width := 2, height := 1, interlaced := false }
    data := [0, 0]
    aux_headers := [] }

/-- A depth-8 image with duplicate palette colors and an out-of-range pixel
reference. -/
def dupOorPng : PngImage :=
  { ihdr := { color_type := ColorType.Indexed [⟨5, 5, 5, 255⟩, ⟨5, 5, 5, 255⟩],
              bit_depth := BitDepth.Eight, width := 3, height := 1, interlaced := false }
    data := [0, 1, 200]
    aux_headers := [] }

/-- The output `optimized_palette` produces for `dupOorPng`: the palette
still has two entries (the out-of-range reference keeps an opaque-black
slot), so it is not strictly shorter than the input palette. -/
def dupOorOut : PngImage :=
  { ihdr := { color_type := ColorType.Indexed [⟨5, 5, 5, 255⟩, ⟨0, 0, 0, 255⟩],
              bit_depth := BitDepth.Eight, width := 3, height := 1, interlaced := false }
    data := [0, 0, 1]
    aux_headers := [] }

/-- A depth-8 image with duplicate palette colors and only in-bounds
references. -/
def dupPng : PngImage :=
  { ihdr := { color_type := ColorType.Indexed [⟨5, 5, 5, 255⟩, ⟨5, 5, 5, 255⟩],
              bit_depth := BitDepth.Eight, width := 2, height := 1, interlaced := false }
    data := [0, 1]
    aux_headers := [] }

/-- A depth-4 image whose pixel data references nibble 5 although the palette
has a single entry. -/
def fourPng : PngImage :=
  { ihdr := { color_type := ColorType.Indexed [⟨7, 8, 9, 255⟩],
              bit_depth := BitDepth.Four, width := 2, height := 1, interlaced := false }
    data := [5]
    aux_headers := [] }

/-! ### Association-list lemmas for the auxiliary chunk map -/

theorem find_replace_ne (t : List (String × List Nat)) (k k' : String)
    (v : List Nat) (h : k' ≠ k) :
    (t.map (fun p => if p.1 == k then (k, v) else p)).find? (fun p => p.1 == k') =
      t.find? (fun p => p.1 == k') := by
  induction t with
  | nil => rfl
  | cons p t ih =>
    by_cases hp : p.1 = k
    · rw [List.map_cons, if_pos (by simpa using hp)]
      rw [List.find?_cons_of_neg _ (by simp only [beq_iff_eq]; exact Ne.symm h),
        List.find?_cons_of_neg _ (by simp only [beq_iff_eq, hp]; exact Ne.symm h)]
      exact ih
    · rw [List.map_cons, if_neg (by simpa using hp)]
      by_cases hpk : p.1 = k'
      · rw [List.find?_cons_of_pos _ (by simpa using hpk),
          List.find?_cons_of_pos _ (by simpa using hpk)]
      · rw [List.find?_cons_of_neg _ (by simpa using hpk),
          List.find?_cons_of_neg _ (by simpa using hpk)]
        exact ih

theorem auxGet_auxInsert_self (hs : List (String × List Nat)) (k : String)
    (v : List Nat) : auxGet (auxInsert hs k v) k = some v := by
  unfold auxInsert
  split
  · rename_i hany
    unfold auxGet
    induction hs with
    | nil => simp at hany
    | cons p t ih =>
      by_cases hp : p.1 = k
      · rw [List.map_cons, if_pos (by simpa using hp)]
        rw [List.find?_cons_of_pos _ (by simp)]
        rfl
      · simp only [List.any_cons, (by simpa using hp : (p.1 == k) = false),
          Bool.false_or] at hany
        rw [List.map_cons, if_neg (by simpa using hp)]
        rw [List.find?_cons_of_neg _ (by simpa using hp)]
        exact ih hany
  · rename_i hany
    unfold auxGet
    rw [List.find?_append]
    have hnone : hs.find? (fun p => p.1 == k) = none := by
      rw [List.find?_eq_none]
      intro p hp hpk
      exact hany (List.any_of_mem hp hpk)
    rw [hnone]
    have hfv : List.find? (fun p => p.1 == k) [(k, v)] = some (k, v) :=
      List.find?_cons_of_pos _ (by simp)
    simp [hfv]

theorem auxGet_auxInsert_ne (hs : List (String × List Nat)) (k k' : String)
    (v : List Nat) (h : k' ≠ k) : auxGet (auxInsert hs k v) k' = auxGet hs k' := by
  unfold auxInsert
  split
  · unfold auxGet
    rw [find_replace_ne hs k k' v h]
  · unfold auxGet
    rw [List.find?_append]
    cases hfind : hs.find? (fun p => p.1 == k') with
    | some x => simp [hfind]
    | none =>
      have hkv : List.find? (fun p => p.1 == k') [(k, v)] = none :=
        List.find?_cons_of_neg _ (by simp only [beq_iff_eq]; exact Ne.symm h)
      simp [hfind, hkv]

/-! ### `seenLookup` lemmas -/

theorem seenLookup_append_of_some (s t : List (RGBA8 × Nat)) (c : RGBA8)
    (j : Nat) (h : seenLookup s c = some j) : seenLookup (s ++ t) c = some j := by
  induction s with
  | nil => simp [seenLookup] at h
  | cons p s ih =>
    obtain ⟨c', j'⟩ := p
    rw [List.cons_append]
    by_cases he : c = c'
    · simp only [seenLookup, if_pos he] at h ⊢
      exact h
    · simp only [seenLookup, if_neg he] at h ⊢
      exact ih h

theorem seenLookup_append_of_none (s t : List (RGBA8 × Nat)) (c : RGBA8)
    (h : seenLookup s c = none) : seenLookup (s ++ t) c = seenLookup t c := by
  induction s with
  | nil => simp
  | cons p s ih =>
    obtain ⟨c', j'⟩ := p
    rw [List.cons_append]
    by_cases he : c = c'
    · simp only [seenLookup, if_pos he] at h
      exact absurd h (by simp)
    · simp only [seenLookup, if_neg he] at h ⊢
      exact ih h

theorem seenLookup_eq_none_iff (s : List (RGBA8 × Nat)) (c : RGBA8) :
    seenLookup s c = none ↔ c ∉ s.map Prod.fst := by
  induction s with
  | nil => simp [seenLookup]
  | cons p s ih =>
    obtain ⟨c', j'⟩ := p
    by_cases he : c = c'
    · simp [seenLookup, he]
    · simp [seenLookup, he, ih]

theorem seenLookup_mem (s : List (RGBA8 × Nat)) (c : RGBA8) (j : Nat)
    (h : seenLookup s c = some j) : (c, j) ∈ s := by
  induction s with
  | nil => simp [seenLookup] at h
  | cons p s ih =>
    obtain ⟨c', j'⟩ := p
    by_cases he : c = c'
    · simp only [seenLookup, if_pos he] at h
      obtain rfl : j' = j := by simpa using h
      simp [he]
    · simp only [seenLookup, if_neg he] at h
      exact List.mem_cons_of_mem _ (ih h)

/-! ### Usage-scanner characterization -/

theorem foldl_update_eq (is : List Nat) (u : Nat → Bool) (x : Nat) :
    (is.foldl (fun u i => fun x => if x = i then true else u x) u) x =
      (u x || decide (x ∈ is)) := by
  induction is generalizing u with
  | nil => simp
  | cons i is ih =>
    rw [List.foldl_cons, ih]
    by_cases hx : x = i <;> simp [hx]

theorem markUsed_eq (d : BitDepth) (u : Nat → Bool) (b x : Nat) :
    markUsed d u b x = (u x || decide (x ∈ subIndices d b)) :=
  foldl_update_eq _ _ _

theorem computeUsed_eq_true_iff (d : BitDepth) (data : List Nat) (x : Nat) :
    computeUsed d data x = true ↔ ∃ b ∈ data, x ∈ subIndices d b := by
  have key : ∀ (l : List Nat) (u : Nat → Bool),
      (l.foldl (markUsed d) u) x = true ↔ u x = true ∨ ∃ b ∈ l, x ∈ subIndices d b := by
    intro l
    induction l with
    | nil => simp
    | cons b l ih =>
      intro u
      rw [List.foldl_cons, ih, markUsed_eq]
      by_cases hx : x ∈ subIndices d b <;> simp [hx]
  rw [computeUsed, key]
  simp

/-! ### Sub-index bounds -/

theorem subIndices_lt_256 (d : BitDepth) (b : Nat) (hb : b < 256) :
    ∀ x ∈ subIndices d b, x < 256 := by
  intro x hx
  cases d <;> simp [subIndices] at hx <;> omega

theorem subIndices_four_lt (b : Nat) (hb : b < 256) :
    ∀ x ∈ subIndices BitDepth.Four b, x < 16 := by
  intro x hx
  simp [subIndices] at hx
  omega

theorem subIndices_two_lt (b : Nat) (hb : b < 256) :
    ∀ x ∈ subIndices BitDepth.Two b, x < 4 := by
  intro x hx
  simp [subIndices] at hx
  omega

/-! ### Sorting facts -/

theorem sortedCandidates_perm (palette : List RGBA8) (used : Nat → Bool) :
    List.Perm (sortedCandidates palette used) (preSort used) :=
  List.perm_insertionSort _ _

theorem sortedCandidates_pairwise (palette : List RGBA8) (used : Nat → Bool) :
    (sortedCandidates palette used).Pairwise (candRel palette) :=
  List.sorted_insertionSort _ _

theorem trues_perm {l l' : List (Nat × Bool)} (h : List.Perm l l') :
    List.Perm (trues l) (trues l') :=
  (h.filter _).map _

theorem trues_append (l l' : List (Nat × Bool)) :
    trues (l ++ l') = trues l ++ trues l' := by
  simp [trues]

theorem trues_preSort (used : Nat → Bool) :
    trues (preSort used) = (List.range 256).filter (fun i => used i) := by
  unfold trues preSort
  rw [List.filter_map]
  rw [List.map_map]
  simp only [Function.comp_def]
  simp

theorem trues_sortedCandidates_perm (palette : List RGBA8) (used : Nat → Bool) :
    List.Perm (trues (sortedCandidates palette used))
      ((List.range 256).filter (fun i => used i)) := by
  have := trues_perm (sortedCandidates_perm palette used)
  rwa [trues_preSort] at this

theorem trues_sortedCandidates_nodup (palette : List RGBA8) (used : Nat → Bool) :
    (trues (sortedCandidates palette used)).Nodup :=
  (trues_sortedCandidates_perm palette used).nodup_iff.mpr
    ((List.nodup_range 256).filter _)

theorem mem_trues_sortedCandidates (palette : List RGBA8) (used : Nat → Bool)
    (i : Nat) : i ∈ trues (sortedCandidates palette used) ↔ i < 256 ∧ used i = true := by
  rw [(trues_sortedCandidates_perm palette used).mem_iff]
  simp

theorem trues_sortedCandidates_length (palette : List RGBA8) (used : Nat → Bool) :
    (trues (sortedCandidates palette used)).length =
      ((List.range 256).filter (fun i => used i)).length :=
  (trues_sortedCandidates_perm palette used).length_eq

/-- The used-flagged indices of the sorted candidates are pairwise
nondecreasing in the sort key. -/
theorem trues_sortedCandidates_pairwise (palette : List RGBA8) (used : Nat → Bool) :
    (trues (sortedCandidates palette used)).Pairwise
      (fun i i' => colorVal palette i ≤ colorVal palette i') := by
  unfold trues
  refine List.Pairwise.map Prod.fst ?_ ((sortedCandidates_pairwise palette used).filter _)
  intro x y h
  exact h

/-! ### Dedup-loop step lemmas -/

theorem buildStep_false (pal : List RGBA8) (oa : Bool) (st : BState) (i : Nat) :
    buildStep pal oa st (i, false) = st := rfl

theorem buildStep_occ (pal : List RGBA8) (oa : Bool) (st : BState) (i j : Nat)
    (h : seenLookup st.seen (effColor pal oa i) = some j) :
    buildStep pal oa st (i, true) =
      { st with pmap := fun x => if x = i then some j else st.pmap x } := by
  simp [buildStep, h]

theorem buildStep_vac (pal : List RGBA8) (oa : Bool) (st : BState) (i : Nat)
    (h : seenLookup st.seen (effColor pal oa i) = none) :
    buildStep pal oa st (i, true) =
      ⟨fun x => if x = i then some (st.next % 256) else st.pmap x,
        st.seen ++ [(effColor pal oa i, st.next % 256)], st.next + 1⟩ := by
  simp [buildStep, h]

theorem trues_cons_true (i : Nat) (l : List (Nat × Bool)) :
    trues ((i, true) :: l) = i :: trues l := by
  simp [trues]

theorem trues_cons_false (i : Nat) (l : List (Nat × Bool)) :
    trues ((i, false) :: l) = trues l := by
  simp [trues]

theorem goodB_init (pal : List RGBA8) (oa : Bool) : GoodB pal oa initState := by
  constructor <;> simp [initState, seenLookup]

/-! ### The master induction over the dedup loop -/

set_option maxRecDepth 4000

theorem build_rel (pal : List RGBA8) (oa : Bool) :
    ∀ (l : List (Nat × Bool)) (st : BState),
      GoodB pal oa st →
      (trues l).Nodup →
      (∀ i ∈ trues l, st.pmap i = none) →
      st.next + (trues l).length ≤ 256 →
      (∀ i ∈ trues l, i < 256) →
      BuildRel pal oa (trues l) st (l.foldl (buildStep pal oa) st)
  | [], st, hg, _, _, _, _ => by
    rw [List.foldl_nil]
    refine { good := hg, covers := ?_, mono := fun i j h => h, next_le := by simp,
             le_next := le_refl _, dom_from := ?_, seen_ext := ⟨[], by simp⟩,
             vacants := ⟨[], by simp [trues]⟩ }
    · intro x hx
      simp [trues] at hx
    · intro x j h
      exact Or.inl (by simp [h])
  | (i, false) :: l, st, hg, hnd, hfresh, hbound, hsmall => by
    rw [List.foldl_cons, buildStep_false, trues_cons_false]
    rw [trues_cons_false] at hnd hbound
    refine build_rel pal oa l st hg hnd ?_ hbound ?_
    · intro x hx
      exact hfresh x (by rw [trues_cons_false]; exact hx)
    · intro x hx
      exact hsmall x (by rw [trues_cons_false]; exact hx)
  | (i, true) :: l, st, hg, hnd, hfresh, hbound, hsmall => by
    rw [List.foldl_cons, trues_cons_true]
    rw [trues_cons_true] at hnd hbound
    have hndl := (List.nodup_cons.mp hnd).2
    have hni : i ∉ trues l := (List.nodup_cons.mp hnd).1
    have hfi : st.pmap i = none :=
      hfresh i (by rw [trues_cons_true]; exact List.mem_cons_self i _)
    have hlen : st.next + (trues l).length + 1 ≤ 256 := by
      simp only [List.length_cons] at hbound
      omega
    have hii : i < 256 :=
      hsmall i (by rw [trues_cons_true]; exact List.mem_cons_self i _)
    have hfreshl : ∀ x ∈ trues l, st.pmap x = none := fun x hx =>
      hfresh x (by rw [trues_cons_true]; exact List.mem_cons_of_mem _ hx)
    have hsmalll : ∀ x ∈ trues l, x < 256 := fun x hx =>
      hsmall x (by rw [trues_cons_true]; exact List.mem_cons_of_mem _ hx)
    cases hlook : seenLookup st.seen (effColor pal oa i) with
    | some j =>
      rw [buildStep_occ pal oa st i j hlook]
      set st1 : BState := { st with pmap := fun x => if x = i then some j else st.pmap x }
        with hst1
      have hp1 : ∀ x, st1.pmap x = if x = i then some j else st.pmap x := fun x => rfl
      have hs1 : st1.seen = st.seen := rfl
      have hx1 : st1.next = st.next := rfl
      have hg' : GoodB pal oa st1 := by
        refine { snd_range := ?_, keys_nodup := ?_, map_seen := ?_,
                 surj := ?_, dom_small := ?_ }
        · rw [hs1, hx1]; exact hg.snd_range
        · rw [hs1]; exact hg.keys_nodup
        · intro x j' h
          rw [hp1] at h
          rw [hs1]
          by_cases hx : x = i
          · subst hx
            rw [if_pos rfl] at h
            obtain rfl : j = j' := by simpa using h
            exact hlook
          · rw [if_neg hx] at h
            exact hg.map_seen x j' h
        · intro j' hj'
          rw [hx1] at hj'
          obtain ⟨x, hx⟩ := hg.surj j' hj'
          have hxi : x ≠ i := fun e => by rw [e, hfi] at hx; cases hx
          exact ⟨x, by rw [hp1, if_neg hxi]; exact hx⟩
        · intro x j' h
          rw [hp1] at h
          by_cases hx : x = i
          · exact hx ▸ hii
          · rw [if_neg hx] at h
            exact hg.dom_small x j' h
      have ih := build_rel pal oa l st1 hg' hndl
        (by
          intro x hx
          have hxi : x ≠ i := fun e => hni (e ▸ hx)
          rw [hp1, if_neg hxi]
          exact hfreshl x hx)
        (by rw [hx1]; omega)
        hsmalll
      have hsti : st1.pmap i = some j := by rw [hp1, if_pos rfl]
      refine { good := ih.good, covers := ?_, mono := ?_, next_le := ?_,
               le_next := ?_, dom_from := ?_, seen_ext := ?_, vacants := ?_ }
      · intro y hy
        rcases List.mem_cons.mp hy with rfl | hy
        · rw [ih.mono y j hsti]
          simp
        · exact ih.covers y hy
      · intro x j' h
        have hxi : x ≠ i := fun e => by rw [e, hfi] at h; cases h
        exact ih.mono x j' (by rw [hp1, if_neg hxi]; exact h)
      · have := ih.next_le
        rw [hx1] at this
        simp only [List.length_cons]
        omega
      · have := ih.le_next
        rw [hx1] at this
        exact this
      · intro x j' h
        rcases ih.dom_from x j' h with hd | hd
        · rw [hp1] at hd
          by_cases hx : x = i
          · exact Or.inr (hx ▸ List.mem_cons_self i _)
          · rw [if_neg hx] at hd
            exact Or.inl hd
        · exact Or.inr (List.mem_cons_of_mem _ hd)
      · obtain ⟨t, ht⟩ := ih.seen_ext
        rw [hs1] at ht
        exact ⟨t, ht⟩
      · obtain ⟨ws, hws, hmap⟩ := ih.vacants
        rw [hs1] at hmap
        exact ⟨ws, hws.cons i, hmap⟩
    | none =>
      have hn : st.next % 256 = st.next := Nat.mod_eq_of_lt (by omega)
      rw [buildStep_vac pal oa st i hlook, hn]
      set st1 : BState :=
        ⟨fun x => if x = i then some st.next else st.pmap x,
          st.seen ++ [(effColor pal oa i, st.next)], st.next + 1⟩ with hst1
      have hp1 : ∀ x, st1.pmap x = if x = i then some st.next else st.pmap x :=
        fun x => rfl
      have hs1 : st1.seen = st.seen ++ [(effColor pal oa i, st.next)] := rfl
      have hx1 : st1.next = st.next + 1 := rfl
      have hg' : GoodB pal oa st1 := by
        refine { snd_range := ?_, keys_nodup := ?_, map_seen := ?_,
                 surj := ?_, dom_small := ?_ }
        · rw [hs1, hx1]
          simp only [List.map_append, hg.snd_range, List.map_cons, List.map_nil]
          rw [List.range_succ]
        · rw [hs1]
          simp only [List.map_append, List.map_cons, List.map_nil]
          rw [List.nodup_append]
          refine ⟨hg.keys_nodup, List.nodup_singleton _, ?_⟩
          intro c hc hc'
          have : c = effColor pal oa i := by simpa using hc'
          subst this
          exact (seenLookup_eq_none_iff _ _).mp hlook hc
        · intro x j' h
          rw [hp1] at h
          rw [hs1]
          by_cases hx : x = i
          · subst hx
            rw [if_pos rfl] at h
            obtain rfl : st.next = j' := by simpa using h
            rw [seenLookup_append_of_none _ _ _ hlook]
            simp [seenLookup]
          · rw [if_neg hx] at h
            exact seenLookup_append_of_some _ _ _ _ (hg.map_seen x j' h)
        · intro j' hj'
          rw [hx1] at hj'
          rcases Nat.lt_succ_iff_lt_or_eq.mp hj' with hj' | rfl
          · obtain ⟨x, hx⟩ := hg.surj j' hj'
            have hxi : x ≠ i := fun e => by rw [e, hfi] at hx; cases hx
            exact ⟨x, by rw [hp1, if_neg hxi]; exact hx⟩
          · exact ⟨i, by rw [hp1, if_pos rfl]⟩
        · intro x j' h
          rw [hp1] at h
          by_cases hx : x = i
          · exact hx ▸ hii
          · rw [if_neg hx] at h
            exact hg.dom_small x j' h
      have ih := build_rel pal oa l st1 hg' hndl
        (by
          intro x hx
          have hxi : x ≠ i := fun e => hni (e ▸ hx)
          rw [hp1, if_neg hxi]
          exact hfreshl x hx)
        (by rw [hx1]; omega)
        hsmalll
      have hsti : st1.pmap i = some st.next := by rw [hp1, if_pos rfl]
      refine { good := ih.good, covers := ?_, mono := ?_, next_le := ?_,
               le_next := ?_, dom_from := ?_, seen_ext := ?_, vacants := ?_ }
      · intro y hy
        rcases List.mem_cons.mp hy with rfl | hy
        · rw [ih.mono y st.next hsti]
          simp
        · exact ih.covers y hy
      · intro x j' h
        have hxi : x ≠ i := fun e => by rw [e, hfi] at h; cases h
        exact ih.mono x j' (by rw [hp1, if_neg hxi]; exact h)
      · have := ih.next_le
        rw [hx1] at this
        simp only [List.length_cons]
        omega
      · have := ih.le_next
        rw [hx1] at this
        omega
      · intro x j' h
        rcases ih.dom_from x j' h with hd | hd
        · rw [hp1] at hd
          by_cases hx : x = i
          · exact Or.inr (hx ▸ List.mem_cons_self i _)
          · rw [if_neg hx] at hd
            exact Or.inl hd
        · exact Or.inr (List.mem_cons_of_mem _ hd)
      · obtain ⟨t, ht⟩ := ih.seen_ext
        rw [hs1] at ht
        exact ⟨(effColor pal oa i, st.next) :: t, by rw [ht]; simp⟩
      · obtain ⟨ws, hws, hmap⟩ := ih.vacants
        obtain ⟨t, ht⟩ := ih.seen_ext
        refine ⟨i :: ws, hws.cons₂ i, ?_⟩
        have hdrop1 : (List.foldl (buildStep pal oa) st1 l).seen.drop st.seen.length =
            (effColor pal oa i, st.next) :: t := by
          rw [ht, hs1, List.append_assoc, List.singleton_append]
          exact List.drop_left _ _
        have hdrop2 : (List.foldl (buildStep pal oa) st1 l).seen.drop
            st1.seen.length = t := by
          rw [ht]
          exact List.drop_left _ _
        rw [hdrop2] at hmap
        rw [hdrop1]
        simp only [List.map_cons]
        rw [hmap]

/-! ### Facts derived from the loop invariants -/

theorem GoodB.length_seen {pal : List RGBA8} {oa : Bool} {st : BState}
    (hg : GoodB pal oa st) : st.seen.length = st.next := by
  have := congrArg List.length hg.snd_range
  simpa using this

theorem GoodB.seen_entry {pal : List RGBA8} {oa : Bool} {st : BState}
    (hg : GoodB pal oa st) {c : RGBA8} {j : Nat} (h : (c, j) ∈ st.seen) :
    j < st.next ∧ st.seen.getD j (blackColor, 0) = (c, j) := by
  obtain ⟨k, hk, hkeq⟩ := List.mem_iff_getElem.mp h
  have hk2 : k < (st.seen.map Prod.snd).length := by simpa using hk
  have hsnd : (st.seen.map Prod.snd)[k] = j := by
    simp [hkeq]
  have hkj : k = j := by
    have := hsnd
    rw [List.getElem_of_eq hg.snd_range] at this
    simpa using this
  subst hkj
  have hklt : k < st.next := hg.length_seen ▸ hk
  refine ⟨hklt, ?_⟩
  rw [List.getD_eq_getElem _ _ hk, hkeq]

theorem GoodB.classColor_eq {pal : List RGBA8} {oa : Bool} {st : BState}
    (hg : GoodB pal oa st) {c : RGBA8} {j : Nat} (h : (c, j) ∈ st.seen) :
    classColor st j = c := by
  rw [classColor, (hg.seen_entry h).2]

theorem GoodB.classColor_mem {pal : List RGBA8} {oa : Bool} {st : BState}
    (hg : GoodB pal oa st) {j : Nat} (hj : j < st.next) :
    (classColor st j, j) ∈ st.seen := by
  have hjl : j < st.seen.length := hg.length_seen ▸ hj
  have hjl2 : j < (st.seen.map Prod.snd).length := by simpa using hjl
  have hsnd : (st.seen.map Prod.snd)[j] = j := by
    rw [List.getElem_of_eq hg.snd_range]
    simp
  have : st.seen[j].2 = j := by simpa using hsnd
  have hmem : st.seen[j] ∈ st.seen := List.getElem_mem _
  have hget : st.seen.getD j (blackColor, 0) = st.seen[j] := List.getD_eq_getElem _ _ hjl
  have hcc : (classColor st j, j) = st.seen[j] := by
    rw [classColor, hget]
    exact Prod.ext rfl this.symm
  rw [hcc]
  exact hmem

theorem GoodB.value_lt_next {pal : List RGBA8} {oa : Bool} {st : BState}
    (hg : GoodB pal oa st) {i j : Nat} (h : st.pmap i = some j) : j < st.next := by
  have := seenLookup_mem _ _ _ (hg.map_seen i j h)
  exact (hg.seen_entry this).1

theorem GoodB.eff_eq_classColor {pal : List RGBA8} {oa : Bool} {st : BState}
    (hg : GoodB pal oa st) {i j : Nat} (h : st.pmap i = some j) :
    effColor pal oa i = classColor st j := by
  have := seenLookup_mem _ _ _ (hg.map_seen i j h)
  exact (hg.classColor_eq this).symm

theorem GoodB.same_class {pal : List RGBA8} {oa : Bool} {st : BState}
    (hg : GoodB pal oa st) {i i' j : Nat} (h : st.pmap i = some j)
    (h' : st.pmap i' = some j) : effColor pal oa i = effColor pal oa i' := by
  rw [hg.eff_eq_classColor h, hg.eff_eq_classColor h']

theorem seenLookup_of_mem_of_nodup (s : List (RGBA8 × Nat)) (c : RGBA8) (j : Nat)
    (hnd : (s.map Prod.fst).Nodup) (h : (c, j) ∈ s) : seenLookup s c = some j := by
  induction s with
  | nil => simp at h
  | cons p s ih =>
    obtain ⟨c', j'⟩ := p
    rcases List.mem_cons.mp h with he | he
    · obtain ⟨rfl, rfl⟩ := Prod.mk.inj he
      simp [seenLookup]
    · have hc : c ≠ c' := by
        intro e
        subst e
        have : c ∈ s.map Prod.fst := List.mem_map.mpr ⟨(c, j), he, rfl⟩
        exact (List.nodup_cons.mp (by simpa using hnd)).1 this
      simp only [seenLookup, if_neg hc]
      exact ih (List.nodup_cons.mp (by simpa using hnd)).2 he

theorem GoodB.classColor_inj {pal : List RGBA8} {oa : Bool} {st : BState}
    (hg : GoodB pal oa st) {j j' : Nat} (hj : j < st.next) (hj' : j' < st.next)
    (h : classColor st j = classColor st j') : j = j' := by
  have h1 := seenLookup_of_mem_of_nodup _ _ _ hg.keys_nodup (hg.classColor_mem hj)
  have h2 := seenLookup_of_mem_of_nodup _ _ _ hg.keys_nodup (hg.classColor_mem hj')
  rw [h] at h1
  rw [h1] at h2
  exact Option.some.inj h2

/-! ### `reordered_palette` characterization -/

theorem reorder_foldl_length (l : List (RGBA8 × Option Nat)) (init : List RGBA8) :
    (l.foldl (fun np p => match p.2 with | some m => np.set m p.1 | none => np)
      init).length = init.length := by
  induction l generalizing init with
  | nil => rfl
  | cons p l ih =>
    rw [List.foldl_cons, ih]
    cases hp : p.2 <;> simp [hp]

theorem reorder_foldl_getD (l : List (RGBA8 × Option Nat)) (init : List RGBA8)
    (j : Nat) (hj : j < init.length) :
    (l.foldl (fun np p => match p.2 with | some m => np.set m p.1 | none => np)
        init).getD j blackColor =
      match l.reverse.find? (fun p => p.2 == some j) with
      | some p => p.1
      | none => init.getD j blackColor := by
  induction l generalizing init with
  | nil => simp
  | cons p l ih =>
    rw [List.foldl_cons]
    have hlen : (match p.2 with
        | some m => init.set m p.1 | none => init).length = init.length := by
      cases hp : p.2 <;> simp
    rw [ih _ (by rw [hlen]; exact hj)]
    rw [List.reverse_cons, List.find?_append]
    cases hf : l.reverse.find? (fun q => q.2 == some j) with
    | some q => simp [hf]
    | none =>
      cases hp : p.2 with
      | none =>
        have h1 : List.find? (fun q => q.2 == some j) [p] = none := by
          simp [List.find?, hp]
        simp [hf, h1, hp]
      | some m =>
        by_cases hm : m = j
        · subst hm
          have h1 : List.find? (fun q => q.2 == some m) [p] = some p := by
            simp [List.find?, hp]
          have h2 : (init.set m p.1).getD m blackColor = p.1 := by
            rw [List.getD_eq_getElem _ _ (by simpa using hj)]
            exact List.getElem_set_self _
          simp only [hf, h1, Option.none_orElse, hp]
          exact h2
        · have h1 : List.find? (fun q => q.2 == some j) [p] = none := by
            rw [List.find?_cons_of_neg _ (by simp [hp, hm])]
            rfl
          have h2 : (init.set m p.1).getD j blackColor = init.getD j blackColor := by
            rw [List.getD_eq_getElem _ _ (by simpa using hj),
              List.getD_eq_getElem _ _ hj]
            exact List.getElem_set_ne (by omega) _
          simp only [hf, h1, Option.none_orElse, hp]
          exact h2

theorem head_filter_eq_find (p : α → Bool) :
    ∀ (l : List α), (l.filter p).head? = l.find? p
  | [] => rfl
  | a :: l => by
    by_cases ha : p a
    · rw [List.filter_cons_of_pos ha, List.find?_cons_of_pos _ ha]
      rfl
    · rw [List.filter_cons_of_neg (by simpa using ha),
        List.find?_cons_of_neg _ (by simpa using ha)]
      exact head_filter_eq_find p l

theorem getLast_filter_eq_find_reverse (p : α → Bool) (l : List α) :
    (l.filter p).getLast? = l.reverse.find? p := by
  rw [← List.head?_reverse, ← List.filter_reverse]
  exact head_filter_eq_find p l.reverse

theorem zip_pmap_eq (pal : List RGBA8) (pmap : Nat → Option Nat) :
    pal.zip ((List.range 256).map pmap) =
      (List.range (min pal.length 256)).map
        (fun i => (pal.getD i blackColor, pmap i)) := by
  apply List.ext_getElem
  · simp
  · intro i h1 h2
    have hip : i < pal.length := by simp at h1; omega
    simp [List.getElem_zip, List.getD, List.getElem?_eq_getElem hip]

theorem foldl_max_init_le : ∀ (l : List Nat) (a : Nat), a ≤ l.foldl max a
  | [], _ => le_refl _
  | x :: l, a => le_trans (le_max_left a x) (foldl_max_init_le l (max a x))

theorem le_foldl_max : ∀ (l : List Nat) (a x : Nat), x ∈ l → x ≤ l.foldl max a
  | [], _, _, h => by simp at h
  | y :: l, a, x, h => by
    rcases List.mem_cons.mp h with rfl | h
    · exact le_trans (le_max_right a x) (foldl_max_init_le l (max a x))
    · exact le_foldl_max l (max a y) x h

theorem foldl_max_cases : ∀ (l : List Nat) (a : Nat),
    l.foldl max a = a ∨ l.foldl max a ∈ l
  | [], _ => Or.inl rfl
  | y :: l, a => by
    rcases foldl_max_cases l (max a y) with h | h
    · rcases max_choice a y with hm | hm
      · exact Or.inl (by rw [List.foldl_cons, h, hm])
      · exact Or.inr (by rw [List.foldl_cons, h, hm]; exact List.mem_cons_self _ _)
    · exact Or.inr (List.mem_cons_of_mem _ h)

theorem reordered_palette_length (pal : List RGBA8) (pmap : Nat → Option Nat) :
    (reordered_palette pal pmap).length =
      ((List.range 256).filterMap pmap).foldl max 0 + 1 := by
  unfold reordered_palette
  rw [reorder_foldl_length]
  simp

theorem reordered_palette_getD (pal : List RGBA8) (pmap : Nat → Option Nat)
    (j : Nat) (hj : j < (reordered_palette pal pmap).length) :
    (reordered_palette pal pmap).getD j blackColor =
      match ((pal.zip ((List.range 256).map pmap)).filter
          (fun p => p.2 == some j)).getLast? with
      | some p => p.1
      | none => blackColor := by
  have hj' : j < (List.replicate
      (((List.range 256).filterMap pmap).foldl max 0 + 1) blackColor).length := by
    rw [reordered_palette_length] at hj
    simpa using hj
  unfold reordered_palette
  rw [reorder_foldl_getD _ _ _ hj']
  rw [← getLast_filter_eq_find_reverse]
  cases hf : ((pal.zip ((List.range 256).map pmap)).filter
      (fun p => p.2 == some j)).getLast? with
  | some q => simp
  | none =>
    simp only
    rw [List.getD_eq_getElem _ _ hj']
    simp

/-- The bounded-domain form: with all defined entries of the map below 256,
the entry at `j` is the original color of the largest in-bounds index mapped
to `j`, or opaque black when there is none. -/
theorem reordered_getD_eq_lastWriter (pal : List RGBA8) (pmap : Nat → Option Nat)
    (hdom : ∀ i j', pmap i = some j' → i < 256) (j : Nat)
    (hj : j < (reordered_palette pal pmap).length) :
    (reordered_palette pal pmap).getD j blackColor =
      match lastInBoundsWriter pal pmap j with
      | some i => pal.getD i blackColor
      | none => blackColor := by
  rw [reordered_palette_getD pal pmap j hj, zip_pmap_eq]
  rw [List.filter_map]
  have hpred : ∀ i ∈ List.range (min pal.length 256),
      ((fun p : RGBA8 × Option Nat => p.2 == some j) ∘
        (fun i => (pal.getD i blackColor, pmap i))) i =
        (fun i => decide (pmap i = some j)) i := by
    intro i _
    rw [Bool.eq_iff_iff]
    simp
  rw [List.filter_congr hpred]
  have hrange : (List.range (min pal.length 256)).filter
      (fun i => decide (pmap i = some j)) =
      (List.range pal.length).filter (fun i => decide (pmap i = some j)) := by
    rcases le_or_lt pal.length 256 with h | h
    · rw [min_eq_left h]
    · rw [min_eq_right (le_of_lt h)]
      have hsplit : List.range pal.length =
          List.range 256 ++ List.range' 256 (pal.length - 256) := by
        rw [List.range_eq_range', List.range_eq_range']
        have h2 : pal.length = (pal.length - 256) + 256 := by omega
        conv_lhs => rw [h2]
        rw [← List.range'_append_1]
      rw [hsplit, List.filter_append]
      have : (List.range' 256 (pal.length - 256)).filter
          (fun i => decide (pmap i = some j)) = [] := by
        rw [List.filter_eq_nil_iff]
        intro x hx
        have hx256 : 256 ≤ x := by
          have := List.mem_range'.mp hx
          omega
        intro hcon
        have := hdom x j (by simpa using hcon)
        omega
      rw [this, List.append_nil]
  rw [hrange, List.getLast?_map]
  unfold lastInBoundsWriter
  cases hlast : ((List.range pal.length).filter
      (fun i => decide (pmap i = some j))).getLast? with
  | none => simp
  | some i => simp

/-! ### Top-level plumbing -/

theorem optimized_palette_eq (png : PngImage) (oa : Bool) (pal : List RGBA8)
    (hct : png.ihdr.color_type = ColorType.Indexed pal)
    (hbd : png.ihdr.bit_depth ≠ BitDepth.One) :
    optimized_palette png oa =
      do_palette_reduction png pal
        (runBuild pal oa (candidateList png.aux_headers pal
          (computeUsed png.ihdr.bit_depth png.data))).pmap := by
  unfold optimized_palette
  rw [hct]
  simp [hbd]

theorem optimized_palette_not_indexed (png : PngImage) (oa : Bool)
    (h : ∀ pal, png.ihdr.color_type ≠ ColorType.Indexed pal) :
    optimized_palette png oa = none := by
  unfold optimized_palette
  cases hct : png.ihdr.color_type with
  | Indexed pal => exact absurd hct (h pal)
  | _ => rfl

theorem optimized_palette_depth_one (png : PngImage) (oa : Bool)
    (h : png.ihdr.bit_depth = BitDepth.One) :
    optimized_palette png oa = none := by
  unfold optimized_palette
  cases hct : png.ihdr.color_type <;> simp [h]

theorem identityMap_iff (pmap : Nat → Option Nat) :
    identityMap pmap = true ↔ ∀ i < 256, ∀ j, pmap i = some j → j = i := by
  unfold identityMap
  rw [List.all_eq_true]
  constructor
  · intro h i hi j hj
    have := h i (List.mem_range.mpr hi)
    rw [hj] at this
    simpa [Nat.mod_eq_of_lt hi] using this
  · intro h i hi
    have hi' : i < 256 := List.mem_range.mp hi
    cases hp : pmap i with
    | none => simp
    | some j => simpa [Nat.mod_eq_of_lt hi'] using h i hi' j hp

theorem pmtbm_none_iff (d : BitDepth) (pmap : Nat → Option Nat) :
    palette_map_to_byte_map d pmap = none ↔ identityMap pmap = true := by
  unfold palette_map_to_byte_map
  by_cases h : identityMap pmap = true <;> simp [h]

theorem pmtbm_some (d : BitDepth) (pmap : Nat → Option Nat)
    (h : identityMap pmap = false) :
    palette_map_to_byte_map d pmap = some (byteMapFor d pmap) := by
  unfold palette_map_to_byte_map
  simp [h]

theorem do_palette_reduction_none_iff (png : PngImage) (pal : List RGBA8)
    (pmap : Nat → Option Nat) :
    do_palette_reduction png pal pmap = none ↔ identityMap pmap = true := by
  unfold do_palette_reduction
  cases hbm : palette_map_to_byte_map png.ihdr.bit_depth pmap with
  | none => simp [(pmtbm_none_iff _ _).mp hbm]
  | some bm =>
    have hid : identityMap pmap ≠ true := by
      intro hcon
      rw [(pmtbm_none_iff png.ihdr.bit_depth pmap).mpr hcon] at hbm
      cases hbm
    simp [hid]

theorem do_palette_reduction_some (png : PngImage) (pal : List RGBA8)
    (pmap : Nat → Option Nat) (out : PngImage)
    (h : do_palette_reduction png pal pmap = some out) :
    identityMap pmap = false ∧
    out.ihdr.color_type = ColorType.Indexed (reordered_palette pal pmap) ∧
    out.ihdr.bit_depth = png.ihdr.bit_depth ∧
    out.ihdr.width = png.ihdr.width ∧
    out.ihdr.height = png.ihdr.height ∧
    out.ihdr.interlaced = png.ihdr.interlaced ∧
    out.data = png.data.map (fun b => byteMapFor png.ihdr.bit_depth pmap b) ∧
    out.aux_headers = updateBkgd png.aux_headers pmap := by
  have hid : identityMap pmap = false := by
    cases hi : identityMap pmap
    · rfl
    · exfalso
      unfold do_palette_reduction palette_map_to_byte_map at h
      rw [if_pos hi] at h
      cases h
  unfold do_palette_reduction at h
  rw [pmtbm_some png.ihdr.bit_depth pmap hid] at h
  obtain rfl := (Option.some.inj h).symm
  exact ⟨hid, rfl, rfl, rfl, rfl, rfl, rfl, rfl⟩

theorem mem_trues_candidateList (aux : List (String × List Nat))
    (pal : List RGBA8) (used : Nat → Bool) (i : Nat) :
    i ∈ trues (candidateList aux pal used) ↔
      (i < 256 ∧ used i = true) ∨
      ((auxGet aux "bKGD").bind List.head? = some i ∧ used i = false) := by
  unfold candidateList
  cases hbk : (auxGet aux "bKGD").bind List.head? with
  | none =>
    simp only [mem_trues_sortedCandidates]
    constructor
    · exact Or.inl
    · rintro (h | h)
      · exact h
      · cases h.1
  | some idx =>
    by_cases hu : used idx
    · simp only [if_pos hu, mem_trues_sortedCandidates]
      constructor
      · exact Or.inl
      · rintro (h | h)
        · exact h
        · obtain rfl : idx = i := by simpa using h.1
          rw [hu] at h
          cases h.2
    · simp only [if_neg hu, trues_append]
      rw [List.mem_append, mem_trues_sortedCandidates]
      have : trues [(idx, true)] = [idx] := by simp [trues]
      rw [this, List.mem_singleton]
      constructor
      · rintro (h | rfl)
        · exact Or.inl h
        · exact Or.inr ⟨rfl, by simpa using hu⟩
      · rintro (h | h)
        · exact Or.inl h
        · obtain rfl : idx = i := by simpa using h.1
          exact Or.inr rfl

theorem trues_candidateList_nodup (aux : List (String × List Nat))
    (pal : List RGBA8) (used : Nat → Bool) :
    (trues (candidateList aux pal used)).Nodup := by
  unfold candidateList
  cases hbk : (auxGet aux "bKGD").bind List.head? with
  | none => exact trues_sortedCandidates_nodup pal used
  | some idx =>
    by_cases hu : used idx
    · simp only [if_pos hu]
      exact trues_sortedCandidates_nodup pal used
    · simp only [if_neg hu, trues_append]
      have h1 : trues [(idx, true)] = [idx] := by simp [trues]
      rw [h1]
      rw [List.nodup_append]
      refine ⟨trues_sortedCandidates_nodup pal used, List.nodup_singleton _, ?_⟩
      intro x hx hx'
      obtain rfl : x = idx := by simpa using hx'
      rw [mem_trues_sortedCandidates] at hx
      rw [hx.2] at hu
      exact hu rfl

theorem trues_candidateList_length (aux : List (String × List Nat))
    (pal : List RGBA8) (used : Nat → Bool)
    (hbk : ∀ idx, (auxGet aux "bKGD").bind List.head? = some idx → idx < 256) :
    (trues (candidateList aux pal used)).length ≤ 256 := by
  unfold candidateList
  have hfl : ((List.range 256).filter (fun i => used i)).length ≤ 256 := by
    calc ((List.range 256).filter (fun i => used i)).length
        ≤ (List.range 256).length := (List.filter_sublist _).length_le
      _ = 256 := by simp
  cases hbkgd : (auxGet aux "bKGD").bind List.head? with
  | none => rw [trues_sortedCandidates_length]; exact hfl
  | some idx =>
    by_cases hu : used idx
    · simp only [if_pos hu]
      rw [trues_sortedCandidates_length]
      exact hfl
    · simp only [if_neg hu, trues_append]
      have h1 : trues [(idx, true)] = [idx] := by simp [trues]
      rw [h1, List.length_append, trues_sortedCandidates_length]
      have hstrict : ((List.range 256).filter (fun i => used i)).length < 256 := by
        have : ((List.range 256).filter (fun i => used i)).length <
            (List.range 256).length := by
          rw [List.length_filter_lt_length_iff_exists]
          exact ⟨idx, List.mem_range.mpr (hbk idx hbkgd), by simpa using hu⟩
        simpa using this
      simp only [List.length_singleton]
      omega

theorem trues_candidateList_small (aux : List (String × List Nat))
    (pal : List RGBA8) (used : Nat → Bool)
    (hbk : ∀ idx, (auxGet aux "bKGD").bind List.head? = some idx → idx < 256) :
    ∀ i ∈ trues (candidateList aux pal used), i < 256 := by
  intro i hi
  rcases (mem_trues_candidateList aux pal used i).mp hi with h | h
  · exact h.1
  · exact hbk i h.1

/-- The canonical instantiation of the master induction at the real
candidate list, starting from the initial state. -/
theorem runBuild_rel (pal : List RGBA8) (oa : Bool)
    (aux : List (String × List Nat)) (used : Nat → Bool)
    (hbk : ∀ idx, (auxGet aux "bKGD").bind List.head? = some idx → idx < 256) :
    BuildRel pal oa (trues (candidateList aux pal used)) initState
      (runBuild pal oa (candidateList aux pal used)) := by
  apply build_rel pal oa _ initState (goodB_init pal oa)
    (trues_candidateList_nodup aux pal used)
    (fun i _ => rfl)
    (by simpa [initState] using trues_candidateList_length aux pal used hbk)
    (trues_candidateList_small aux pal used hbk)

theorem updateBkgd_get_ne (aux : List (String × List Nat)) (pmap : Nat → Option Nat)
    (k : String) (hk : k ≠ "bKGD") :
    auxGet (updateBkgd aux pmap) k = auxGet aux k := by
  unfold updateBkgd
  split
  · rfl
  · split
    · rfl
    · split
      · exact auxGet_auxInsert_ne aux "bKGD" k _ hk
      · rfl

/-! ### Claim theorems -/

/-- C3: for every input image, `optimized_palette` returns no result exactly
when the color type is not palette-indexed, or the bit depth is 1, or the
computed old-to-new index mapping is the identity on its defined entries
(every old index with a destination maps to itself; in particular bit-depth-1
and non-indexed images always yield no change). -/
theorem optimized_palette_none_characterization (png : PngImage) (oa : Bool)
    (hbk : ∀ idx, (auxGet png.aux_headers "bKGD").bind List.head? = some idx →
      idx < 256) :
    optimized_palette png oa = none ↔
      ((∀ pal, png.ihdr.color_type ≠ ColorType.Indexed pal) ∨
        png.ihdr.bit_depth = BitDepth.One ∨
        (∃ pal, png.ihdr.color_type = ColorType.Indexed pal ∧
          ∀ i j, (runBuild pal oa (candidateList png.aux_headers pal
            (computeUsed png.ihdr.bit_depth png.data))).pmap i = some j → j = i)) := by
  by_cases hex : ∃ pal, png.ihdr.color_type = ColorType.Indexed pal
  · obtain ⟨pal, hct⟩ := hex
    by_cases hbd : png.ihdr.bit_depth = BitDepth.One
    · rw [optimized_palette_depth_one png oa hbd]
      constructor
      · intro _
        exact Or.inr (Or.inl hbd)
      · intro _
        rfl
    · rw [optimized_palette_eq png oa pal hct hbd, do_palette_reduction_none_iff,
        identityMap_iff]
      have hrel := runBuild_rel pal oa png.aux_headers
        (computeUsed png.ihdr.bit_depth png.data) hbk
      constructor
      · intro h
        refine Or.inr (Or.inr ⟨pal, hct, ?_⟩)
        intro i j hij
        exact h i (hrel.good.dom_small i j hij) j hij
      · rintro (h | h | ⟨pal', hpal', h⟩)
        · exact absurd hct (h pal)
        · exact absurd h hbd
        · obtain rfl : pal' = pal := by
            rw [hct] at hpal'
            exact (ColorType.Indexed.inj hpal').symm
          intro i _ j hij
          exact h i j hij
  · have hni : ∀ pal, png.ihdr.color_type ≠ ColorType.Indexed pal :=
      fun pal h => hex ⟨pal, h⟩
    rw [optimized_palette_not_indexed png oa hni]
    constructor
    · intro _
      exact Or.inl hni
    · intro _
      rfl

/-- Witness for C3 at a concrete image. -/
theorem optimized_palette_none_characterization_witness :
    optimized_palette examplePng false = none ↔
      ((∀ pal, examplePng.ihdr.color_type ≠ ColorType.Indexed pal) ∨
        examplePng.ihdr.bit_depth = BitDepth.One ∨
        (∃ pal, examplePng.ihdr.color_type = ColorType.Indexed pal ∧
          ∀ i j, (runBuild pal false (candidateList examplePng.aux_headers pal
            (computeUsed examplePng.ihdr.bit_depth examplePng.data))).pmap i =
              some j → j = i)) :=
  optimized_palette_none_characterization examplePng false (by
    intro idx h
    have he : (auxGet examplePng.aux_headers "bKGD").bind List.head? = some 0 := by
      decide
    rw [he] at h
    obtain rfl := Option.some.inj h
    omega)

/-- C9: whenever `optimized_palette` returns a new image, the pixel byte
sequence keeps its length, every auxiliary chunk other than `bKGD` is
unchanged, and the bit depth and all header fields other than the palette are
unchanged. -/
theorem optimized_palette_frame (png : PngImage) (oa : Bool) (out : PngImage)
    (hsome : optimized_palette png oa = some out) :
    out.data.length = png.data.length ∧
    (∀ k : String, k ≠ "bKGD" →
      auxGet out.aux_headers k = auxGet png.aux_headers k) ∧
    out.ihdr.bit_depth = png.ihdr.bit_depth ∧
    out.ihdr.width = png.ihdr.width ∧
    out.ihdr.height = png.ihdr.height ∧
    out.ihdr.interlaced = png.ihdr.interlaced := by
  by_cases hex : ∃ pal, png.ihdr.color_type = ColorType.Indexed pal
  · obtain ⟨pal, hct⟩ := hex
    by_cases hbd : png.ihdr.bit_depth = BitDepth.One
    · rw [optimized_palette_depth_one png oa hbd] at hsome
      cases hsome
    · rw [optimized_palette_eq png oa pal hct hbd] at hsome
      obtain ⟨_, _, hbd', hw, hh, hi, hdata, haux⟩ :=
        do_palette_reduction_some _ _ _ _ hsome
      refine ⟨by rw [hdata]; simp, ?_, hbd', hw, hh, hi⟩
      intro k hk
      rw [haux]
      exact updateBkgd_get_ne _ _ k hk
  · rw [optimized_palette_not_indexed png oa (fun pal h => hex ⟨pal, h⟩)] at hsome
    cases hsome

/-- Witness for C9 at a concrete image. -/
theorem optimized_palette_frame_witness :
    exampleOut.data.length = examplePng.data.length ∧
    (∀ k : String, k ≠ "bKGD" →
      auxGet exampleOut.aux_headers k = auxGet examplePng.aux_headers k) ∧
    exampleOut.ihdr.bit_depth = examplePng.ihdr.bit_depth ∧
    exampleOut.ihdr.width = examplePng.ihdr.width ∧
    exampleOut.ihdr.height = examplePng.ihdr.height ∧
    exampleOut.ihdr.interlaced = examplePng.ihdr.interlaced :=
  optimized_palette_frame examplePng false exampleOut (by decide)

/-- C6: on structurally valid input the transform is total (the embedding
returns `none` or `some`, there is no panic state: every palette access is
fenced by the opaque-black default), out-of-range indices resolve to opaque
black both in the sort key and in color assignment, and every referenced
index — also one at or beyond the palette length — receives a destination in
the computed mapping. -/
theorem out_of_range_safety (png : PngImage) (oa : Bool) (pal : List RGBA8)
    (hct : png.ihdr.color_type = ColorType.Indexed pal)
    (hbd : png.ihdr.bit_depth ≠ BitDepth.One)
    (hdata : ∀ b ∈ png.data, b < 256)
    (hbk : ∀ idx, (auxGet png.aux_headers "bKGD").bind List.head? = some idx →
      idx < 256) :
    (∀ i, pal.length ≤ i →
      resolvedColor pal i = blackColor ∧ effColor pal oa i = blackColor ∧
        colorVal pal i = 255 * 2 ^ 18) ∧
    (∀ b ∈ png.data, ∀ x ∈ subIndices png.ihdr.bit_depth b,
      (runBuild pal oa (candidateList png.aux_headers pal
        (computeUsed png.ihdr.bit_depth png.data))).pmap x ≠ none) ∧
    (optimized_palette png oa = none ∨ ∃ out, optimized_palette png oa = some out) := by
  refine ⟨?_, ?_, ?_⟩
  · intro i hi
    have hres : resolvedColor pal i = blackColor := by
      rw [resolvedColor]
      exact List.getD_eq_default _ _ hi
    refine ⟨hres, ?_, ?_⟩
    · rw [effColor, hres]
      simp [blackColor]
    · rw [colorVal, hres]
      simp [blackColor]
  · intro b hb x hx
    have hused : computeUsed png.ihdr.bit_depth png.data x = true :=
      (computeUsed_eq_true_iff _ _ _).mpr ⟨b, hb, hx⟩
    have hx256 : x < 256 := subIndices_lt_256 _ b (hdata b hb) x hx
    have hrel := runBuild_rel pal oa png.aux_headers
      (computeUsed png.ihdr.bit_depth png.data) hbk
    exact hrel.covers x ((mem_trues_candidateList _ _ _ x).mpr
      (Or.inl ⟨hx256, hused⟩))
  · cases h : optimized_palette png oa with
    | none => exact Or.inl rfl
    | some out => exact Or.inr ⟨out, rfl⟩

/-- Witness for C6 at a depth-4 image whose data references nibble 5 with a
one-entry palette. -/
theorem out_of_range_safety_witness :
    ((∀ i, [(⟨7, 8, 9, 255⟩ : RGBA8)].length ≤ i →
      resolvedColor [⟨7, 8, 9, 255⟩] i = blackColor ∧
        effColor [⟨7, 8, 9, 255⟩] false i = blackColor ∧
        colorVal [⟨7, 8, 9, 255⟩] i = 255 * 2 ^ 18) ∧
    (∀ b ∈ fourPng.data, ∀ x ∈ subIndices fourPng.ihdr.bit_depth b,
      (runBuild [⟨7, 8, 9, 255⟩] false (candidateList fourPng.aux_headers
        [⟨7, 8, 9, 255⟩] (computeUsed fourPng.ihdr.bit_depth fourPng.data))).pmap
          x ≠ none) ∧
    (optimized_palette fourPng false = none ∨
      ∃ out, optimized_palette fourPng false = some out)) :=
  out_of_range_safety fourPng false [⟨7, 8, 9, 255⟩] rfl (by decide)
    (by decide)
    (by
      intro idx h
      have he : (auxGet fourPng.aux_headers "bKGD").bind List.head? = none := by
        decide
      rw [he] at h
      cases h)

/-- C10: each output palette entry `j` holds the original color of the
largest in-bounds old index mapped to `j` (last writer wins), and opaque
black when only out-of-range references were assigned `j`. -/
theorem output_palette_last_writer (png : PngImage) (oa : Bool) (out : PngImage)
    (pal : List RGBA8)
    (hct : png.ihdr.color_type = ColorType.Indexed pal)
    (hbk : ∀ idx, (auxGet png.aux_headers "bKGD").bind List.head? = some idx →
      idx < 256)
    (hsome : optimized_palette png oa = some out) :
    ∃ pal2, out.ihdr.color_type = ColorType.Indexed pal2 ∧
      ∀ j, j < pal2.length →
        pal2.getD j blackColor =
          match lastInBoundsWriter pal
              (runBuild pal oa (candidateList png.aux_headers pal
                (computeUsed png.ihdr.bit_depth png.data))).pmap j with
          | some i => pal.getD i blackColor
          | none => blackColor := by
  by_cases hbd : png.ihdr.bit_depth = BitDepth.One
  · rw [optimized_palette_depth_one png oa hbd] at hsome
    cases hsome
  · rw [optimized_palette_eq png oa pal hct hbd] at hsome
    obtain ⟨_, hctout, _, _, _, _, _, _⟩ := do_palette_reduction_some _ _ _ _ hsome
    refine ⟨_, hctout, ?_⟩
    intro j hj
    exact reordered_getD_eq_lastWriter pal _
      (runBuild_rel pal oa png.aux_headers
        (computeUsed png.ihdr.bit_depth png.data) hbk).good.dom_small j hj

/-- Witness for C10 at a concrete image. -/
theorem output_palette_last_writer_witness :
    ∃ pal2, exampleOut.ihdr.color_type = ColorType.Indexed pal2 ∧
      ∀ j, j < pal2.length →
        pal2.getD j blackColor =
          match lastInBoundsWriter [⟨200, 0, 0, 255⟩, ⟨0, 0, 255, 255⟩]
              (runBuild [⟨200, 0, 0, 255⟩, ⟨0, 0, 255, 255⟩] false
                (candidateList examplePng.aux_headers
                  [⟨200, 0, 0, 255⟩, ⟨0, 0, 255, 255⟩]
                  (computeUsed examplePng.ihdr.bit_depth examplePng.data))).pmap
              j with
          | some i => List.getD [⟨200, 0, 0, 255⟩, ⟨0, 0, 255, 255⟩] i blackColor
          | none => blackColor :=
  output_palette_last_writer examplePng false exampleOut
    [⟨200, 0, 0, 255⟩, ⟨0, 0, 255, 255⟩] rfl
    (by
      intro idx h
      have he : (auxGet examplePng.aux_headers "bKGD").bind List.head? = some 0 := by
        decide
      rw [he] at h
      obtain rfl := Option.some.inj h
      omega)
    (by decide)

/-- C7: the background index always receives a destination (it is appended
to the sorted candidates, used-tagged, when no pixel references it), and the
output's `bKGD` chunk is the single byte holding its new compact index. -/
theorem background_mapped (png : PngImage) (oa : Bool) (pal : List RGBA8)
    (bs : List Nat) (idx : Nat)
    (hct : png.ihdr.color_type = ColorType.Indexed pal)
    (hbd : png.ihdr.bit_depth ≠ BitDepth.One)
    (haux : auxGet png.aux_headers "bKGD" = some bs)
    (hhead : bs.head? = some idx)
    (hidx : idx < 256) :
    (computeUsed png.ihdr.bit_depth png.data idx = false →
      candidateList png.aux_headers pal (computeUsed png.ihdr.bit_depth png.data) =
        sortedCandidates pal (computeUsed png.ihdr.bit_depth png.data) ++
          [(idx, true)]) ∧
    (runBuild pal oa (candidateList png.aux_headers pal
      (computeUsed png.ihdr.bit_depth png.data))).pmap idx ≠ none ∧
    (∀ out, optimized_palette png oa = some out →
      ∃ j, (runBuild pal oa (candidateList png.aux_headers pal
        (computeUsed png.ihdr.bit_depth png.data))).pmap idx = some j ∧
        auxGet out.aux_headers "bKGD" = some [j]) := by
  have hbind : (auxGet png.aux_headers "bKGD").bind List.head? = some idx := by
    rw [haux]
    simpa using hhead
  have hbk : ∀ i, (auxGet png.aux_headers "bKGD").bind List.head? = some i →
      i < 256 := by
    intro i h
    rw [hbind] at h
    obtain rfl := Option.some.inj h
    exact hidx
  have hcov : (runBuild pal oa (candidateList png.aux_headers pal
      (computeUsed png.ihdr.bit_depth png.data))).pmap idx ≠ none := by
    have hrel := runBuild_rel pal oa png.aux_headers
      (computeUsed png.ihdr.bit_depth png.data) hbk
    refine hrel.covers idx ((mem_trues_candidateList _ _ _ idx).mpr ?_)
    by_cases hu : computeUsed png.ihdr.bit_depth png.data idx
    · exact Or.inl ⟨hidx, hu⟩
    · exact Or.inr ⟨hbind, by simpa using hu⟩
  refine ⟨?_, hcov, ?_⟩
  · intro hu
    unfold candidateList
    rw [hbind]
    simp [hu]
  · intro out hsome
    obtain ⟨j, hj⟩ := Option.ne_none_iff_exists'.mp hcov
    refine ⟨j, hj, ?_⟩
    rw [optimized_palette_eq png oa pal hct hbd] at hsome
    obtain ⟨_, _, _, _, _, _, _, hauxout⟩ := do_palette_reduction_some _ _ _ _ hsome
    rw [hauxout]
    have hupd : updateBkgd png.aux_headers
        (runBuild pal oa (candidateList png.aux_headers pal
          (computeUsed png.ihdr.bit_depth png.data))).pmap =
        auxInsert png.aux_headers "bKGD" [j] := by
      simp only [updateBkgd, haux, hhead, hj]
    rw [hupd]
    exact auxGet_auxInsert_self _ _ _

/-- Witness for C7 at a concrete image. -/
theorem background_mapped_witness :
    (computeUsed examplePng.ihdr.bit_depth examplePng.data 0 = false →
      candidateList examplePng.aux_headers [⟨200, 0, 0, 255⟩, ⟨0, 0, 255, 255⟩]
          (computeUsed examplePng.ihdr.bit_depth examplePng.data) =
        sortedCandidates [⟨200, 0, 0, 255⟩, ⟨0, 0, 255, 255⟩]
          (computeUsed examplePng.ihdr.bit_depth examplePng.data) ++
          [(0, true)]) ∧
    (runBuild [⟨200, 0, 0, 255⟩, ⟨0, 0, 255, 255⟩] false
      (candidateList examplePng.aux_headers [⟨200, 0, 0, 255⟩, ⟨0, 0, 255, 255⟩]
        (computeUsed examplePng.ihdr.bit_depth examplePng.data))).pmap 0 ≠ none ∧
    (∀ out, optimized_palette examplePng false = some out →
      ∃ j, (runBuild [⟨200, 0, 0, 255⟩, ⟨0, 0, 255, 255⟩] false
        (candidateList examplePng.aux_headers [⟨200, 0, 0, 255⟩, ⟨0, 0, 255, 255⟩]
          (computeUsed examplePng.ihdr.bit_depth examplePng.data))).pmap 0 =
            some j ∧
        auxGet out.aux_headers "bKGD" = some [j]) :=
  background_mapped examplePng false [⟨200, 0, 0, 255⟩, ⟨0, 0, 255, 255⟩]
    [0] 0 rfl (by decide) (by decide) rfl (by decide)

/-! ### Effective-color lemmas -/

theorem effColor_false (pal : List RGBA8) (i : Nat) :
    effColor pal false i = resolvedColor pal i := by
  unfold effColor
  rw [if_neg]
  rintro ⟨h, _⟩
  cases h

theorem effColor_alpha (pal : List RGBA8) (oa : Bool) (i : Nat) :
    (effColor pal oa i).a = (resolvedColor pal i).a := by
  unfold effColor
  split <;> rfl

theorem effColor_of_alpha_zero (pal : List RGBA8) (i : Nat)
    (h : (resolvedColor pal i).a = 0) : effColor pal true i = ⟨0, 0, 0, 0⟩ := by
  unfold effColor
  rw [if_pos ⟨rfl, h⟩]
  have h2 := h
  cases hc : resolvedColor pal i with
  | mk r g b a =>
    rw [hc] at h2
    simp only at h2
    simp [h2]

theorem effColor_of_alpha_ne (pal : List RGBA8) (oa : Bool) (i : Nat)
    (h : (resolvedColor pal i).a ≠ 0) : effColor pal oa i = resolvedColor pal i := by
  unfold effColor
  rw [if_neg]
  rintro ⟨_, h2⟩
  exact h h2

theorem effColor_eq_cases (pal : List RGBA8) (oa : Bool) (i : Nat) :
    effColor pal oa i = resolvedColor pal i ∨
      (oa = true ∧ (resolvedColor pal i).a = 0 ∧ effColor pal oa i = ⟨0, 0, 0, 0⟩) := by
  by_cases h : oa = true ∧ (resolvedColor pal i).a = 0
  · obtain ⟨h1, h2⟩ := h
    subst h1
    exact Or.inr ⟨rfl, h2, effColor_of_alpha_zero pal i h2⟩
  · left
    unfold effColor
    rw [if_neg h]

/-- If an in-bounds index is mapped to `j`, the last in-bounds writer of `j`
exists, is in bounds and is mapped to `j`. -/
theorem lastInBoundsWriter_spec (pal : List RGBA8) (pmap : Nat → Option Nat)
    (j p : Nat) (hp : p < pal.length) (hpj : pmap p = some j) :
    ∃ w, lastInBoundsWriter pal pmap j = some w ∧ w < pal.length ∧
      pmap w = some j := by
  unfold lastInBoundsWriter
  have hpmem : p ∈ (List.range pal.length).filter
      (fun i => decide (pmap i = some j)) := by
    rw [List.mem_filter]
    exact ⟨List.mem_range.mpr hp, by simp [hpj]⟩
  cases hlast : ((List.range pal.length).filter
      (fun i => decide (pmap i = some j))).getLast? with
  | none =>
    rw [List.getLast?_eq_none_iff] at hlast
    rw [hlast] at hpmem
    cases hpmem
  | some w =>
    have hwmem := List.mem_of_getLast?_eq_some hlast
    rw [List.mem_filter] at hwmem
    exact ⟨w, rfl, List.mem_range.mp hwmem.1, by simpa using hwmem.2⟩

/-- C2 (counterexample part): for the image with transparent entries
`{10,20,30,0}` and `{40,50,60,0}` both used, the alpha flag collapses both
old indices to compact index 0, but the output palette entry there is
`{40,50,60,0}` — alpha 0 with the RGB of the last writer — not `{0,0,0,0}`
as the claim states. -/
theorem transparent_entry_counterexample :
    optimized_palette transparentPng true = some transparentOut ∧
    (runBuild [⟨10, 20, 30, 0⟩, ⟨40, 50, 60, 0⟩] true
      (candidateList transparentPng.aux_headers [⟨10, 20, 30, 0⟩, ⟨40, 50, 60, 0⟩]
        (computeUsed transparentPng.ihdr.bit_depth transparentPng.data))).pmap 0 =
          some 0 ∧
    (runBuild [⟨10, 20, 30, 0⟩, ⟨40, 50, 60, 0⟩] true
      (candidateList transparentPng.aux_headers [⟨10, 20, 30, 0⟩, ⟨40, 50, 60, 0⟩]
        (computeUsed transparentPng.ihdr.bit_depth transparentPng.data))).pmap 1 =
          some 0 ∧
    transparentOut.ihdr.color_type = ColorType.Indexed [⟨40, 50, 60, 0⟩] ∧
    (⟨40, 50, 60, 0⟩ : RGBA8) ≠ ⟨0, 0, 0, 0⟩ := by
  refine ⟨by decide, by decide, by decide, by decide, by decide⟩

theorem value_le_maxIndex (pmap : Nat → Option Nat) (i j : Nat) (hi : i < 256)
    (h : pmap i = some j) :
    j ≤ ((List.range 256).filterMap pmap).foldl max 0 := by
  apply le_foldl_max
  rw [List.mem_filterMap]
  exact ⟨i, List.mem_range.mpr hi, h⟩

/-- C2 (amended): for an image whose pixel data uses two in-bounds palette
entries with alpha 0 but different RGB, `optimize_alpha = true` maps both old
indices to one common compact index whose output palette entry has alpha 0
(the code stores the last writer's original RGB there, not `{0,0,0,0}`);
`optimize_alpha = false` assigns two distinct compact indices. -/
theorem transparent_collapse (png : PngImage) (pal : List RGBA8) (p q : Nat)
    (hct : png.ihdr.color_type = ColorType.Indexed pal)
    (hbd : png.ihdr.bit_depth ≠ BitDepth.One)
    (hbk : ∀ idx, (auxGet png.aux_headers "bKGD").bind List.head? = some idx →
      idx < 256)
    (hp : p < pal.length) (hq : q < pal.length)
    (hpa : (pal.getD p blackColor).a = 0) (hqa : (pal.getD q blackColor).a = 0)
    (hrgb : pal.getD p blackColor ≠ pal.getD q blackColor)
    (hpu : computeUsed png.ihdr.bit_depth png.data p = true)
    (hqu : computeUsed png.ihdr.bit_depth png.data q = true)
    (hp256 : p < 256) (hq256 : q < 256) :
    (∃ j,
      (runBuild pal true (candidateList png.aux_headers pal
        (computeUsed png.ihdr.bit_depth png.data))).pmap p = some j ∧
      (runBuild pal true (candidateList png.aux_headers pal
        (computeUsed png.ihdr.bit_depth png.data))).pmap q = some j ∧
      ∀ out, optimized_palette png true = some out →
        ∃ pal2, out.ihdr.color_type = ColorType.Indexed pal2 ∧
          (pal2.getD j blackColor).a = 0) ∧
    (∃ jp jq,
      (runBuild pal false (candidateList png.aux_headers pal
        (computeUsed png.ihdr.bit_depth png.data))).pmap p = some jp ∧
      (runBuild pal false (candidateList png.aux_headers pal
        (computeUsed png.ihdr.bit_depth png.data))).pmap q = some jq ∧
      jp ≠ jq) := by
  have hrelT := runBuild_rel pal true png.aux_headers
    (computeUsed png.ihdr.bit_depth png.data) hbk
  have hrelF := runBuild_rel pal false png.aux_headers
    (computeUsed png.ihdr.bit_depth png.data) hbk
  have hpm : p ∈ trues (candidateList png.aux_headers pal
      (computeUsed png.ihdr.bit_depth png.data)) :=
    (mem_trues_candidateList _ _ _ p).mpr (Or.inl ⟨hp256, hpu⟩)
  have hqm : q ∈ trues (candidateList png.aux_headers pal
      (computeUsed png.ihdr.bit_depth png.data)) :=
    (mem_trues_candidateList _ _ _ q).mpr (Or.inl ⟨hq256, hqu⟩)
  constructor
  · obtain ⟨jp, hjp⟩ := Option.ne_none_iff_exists'.mp (hrelT.covers p hpm)
    obtain ⟨jq, hjq⟩ := Option.ne_none_iff_exists'.mp (hrelT.covers q hqm)
    have heffp : effColor pal true p = ⟨0, 0, 0, 0⟩ :=
      effColor_of_alpha_zero pal p hpa
    have heffq : effColor pal true q = ⟨0, 0, 0, 0⟩ :=
      effColor_of_alpha_zero pal q hqa
    have hjj : jp = jq := by
      have h1 := hrelT.good.map_seen p jp hjp
      have h2 := hrelT.good.map_seen q jq hjq
      rw [heffp] at h1
      rw [heffq] at h2
      rw [h1] at h2
      exact Option.some.inj h2
    subst hjj
    refine ⟨jp, hjp, hjq, ?_⟩
    intro out hsome
    rw [optimized_palette_eq png true pal hct hbd] at hsome
    obtain ⟨_, hctout, _⟩ := do_palette_reduction_some _ _ _ _ hsome
    refine ⟨_, hctout, ?_⟩
    have hjlt : jp < (reordered_palette pal
        (runBuild pal true (candidateList png.aux_headers pal
          (computeUsed png.ihdr.bit_depth png.data))).pmap).length := by
      rw [reordered_palette_length]
      have := value_le_maxIndex _ p jp hp256 hjp
      omega
    rw [reordered_getD_eq_lastWriter pal _ hrelT.good.dom_small jp hjlt]
    obtain ⟨w, hw, hwlt, hwj⟩ := lastInBoundsWriter_spec pal _ jp p hp hjp
    rw [hw]
    have hsame := hrelT.good.same_class hwj hjp
    rw [heffp] at hsame
    have halpha := effColor_alpha pal true w
    rw [hsame] at halpha
    exact halpha.symm
  · obtain ⟨jp, hjp⟩ := Option.ne_none_iff_exists'.mp (hrelF.covers p hpm)
    obtain ⟨jq, hjq⟩ := Option.ne_none_iff_exists'.mp (hrelF.covers q hqm)
    refine ⟨jp, jq, hjp, hjq, ?_⟩
    intro he
    subst he
    have := hrelF.good.same_class hjp hjq
    rw [effColor_false, effColor_false] at this
    exact hrgb this

/-- Witness for the amended C2 at the concrete transparent-pair image. -/
theorem transparent_collapse_witness :
    (∃ j,
      (runBuild [⟨10, 20, 30, 0⟩, ⟨40, 50, 60, 0⟩] true
        (candidateList transparentPng.aux_headers
          [⟨10, 20, 30, 0⟩, ⟨40, 50, 60, 0⟩]
          (computeUsed transparentPng.ihdr.bit_depth transparentPng.data))).pmap
            0 = some j ∧
      (runBuild [⟨10, 20, 30, 0⟩, ⟨40, 50, 60, 0⟩] true
        (candidateList transparentPng.aux_headers
          [⟨10, 20, 30, 0⟩, ⟨40, 50, 60, 0⟩]
          (computeUsed transparentPng.ihdr.bit_depth transparentPng.data))).pmap
            1 = some j ∧
      ∀ out, optimized_palette transparentPng true = some out →
        ∃ pal2, out.ihdr.color_type = ColorType.Indexed pal2 ∧
          (pal2.getD j blackColor).a = 0) ∧
    (∃ jp jq,
      (runBuild [⟨10, 20, 30, 0⟩, ⟨40, 50, 60, 0⟩] false
        (candidateList transparentPng.aux_headers
          [⟨10, 20, 30, 0⟩, ⟨40, 50, 60, 0⟩]
          (computeUsed transparentPng.ihdr.bit_depth transparentPng.data))).pmap
            0 = some jp ∧
      (runBuild [⟨10, 20, 30, 0⟩, ⟨40, 50, 60, 0⟩] false
        (candidateList transparentPng.aux_headers
          [⟨10, 20, 30, 0⟩, ⟨40, 50, 60, 0⟩]
          (computeUsed transparentPng.ihdr.bit_depth transparentPng.data))).pmap
            1 = some jq ∧
      jp ≠ jq) :=
  transparent_collapse transparentPng [⟨10, 20, 30, 0⟩, ⟨40, 50, 60, 0⟩] 0 1
    rfl (by decide)
    (by
      intro idx h
      have he : (auxGet transparentPng.aux_headers "bKGD").bind List.head? =
          none := by decide
      rw [he] at h
      cases h)
    (by decide) (by decide) (by decide) (by decide) (by decide)
    (by decide) (by decide) (by decide) (by decide)

/-! ### Counting machinery for C8 -/

theorem effColor_congr (pal : List RGBA8) (oa : Bool) (p q : Nat)
    (h : resolvedColor pal p = resolvedColor pal q) :
    effColor pal oa p = effColor pal oa q := by
  unfold effColor
  rw [h]

theorem reordered_length_eq_next (pal : List RGBA8) (oa : Bool) (st' : BState)
    (hg : GoodB pal oa st') (hpos : 0 < st'.next) :
    (reordered_palette pal st'.pmap).length = st'.next := by
  rw [reordered_palette_length]
  have hub : ∀ v ∈ (List.range 256).filterMap st'.pmap, v < st'.next := by
    intro v hv
    rw [List.mem_filterMap] at hv
    obtain ⟨i, _, hi⟩ := hv
    exact hg.value_lt_next hi
  have hmax_lt : ((List.range 256).filterMap st'.pmap).foldl max 0 < st'.next := by
    rcases foldl_max_cases ((List.range 256).filterMap st'.pmap) 0 with h | h
    · rw [h]
      exact hpos
    · exact hub _ h
  have hge : st'.next - 1 ≤ ((List.range 256).filterMap st'.pmap).foldl max 0 := by
    obtain ⟨i, hi⟩ := hg.surj (st'.next - 1) (by omega)
    exact value_le_maxIndex _ i _ (hg.dom_small i _ hi) hi
  omega

theorem toFinset_card_map_range_le (N : Nat) (f : Nat → RGBA8) (p q : Nat)
    (hp : p < N) (hq : q < N) (hpq : p ≠ q) (hf : f p = f q) :
    (((List.range N).map f).toFinset).card ≤ N - 1 := by
  have hsub : ((List.range N).map f).toFinset ⊆
      (((List.range N).erase q).map f).toFinset := by
    intro c hc
    rw [List.mem_toFinset, List.mem_map] at hc
    obtain ⟨i, hi, rfl⟩ := hc
    rw [List.mem_toFinset, List.mem_map]
    by_cases hiq : i = q
    · subst hiq
      exact ⟨p, (List.mem_erase_of_ne hpq).mpr (List.mem_range.mpr hp), hf⟩
    · exact ⟨i, (List.mem_erase_of_ne hiq).mpr hi, rfl⟩
  calc (((List.range N).map f).toFinset).card
      ≤ ((((List.range N).erase q).map f).toFinset).card := Finset.card_le_card hsub
    _ ≤ (((List.range N).erase q).map f).length := List.toFinset_card_le _
    _ = ((List.range N).erase q).length := List.length_map _ _
    _ = N - 1 := by
        rw [List.length_erase_of_mem (List.mem_range.mpr hq), List.length_range]

theorem do_palette_reduction_some_of_ne (png : PngImage) (pal : List RGBA8)
    (pmap : Nat → Option Nat) (h : identityMap pmap = false) :
    ∃ out, do_palette_reduction png pal pmap = some out := by
  unfold do_palette_reduction
  rw [pmtbm_some png.ihdr.bit_depth pmap h]
  exact ⟨_, rfl⟩

/-- The dedup count: the number of assigned compact indices is the number of
distinct effective colors over the used-flagged candidates. -/
theorem next_le_of_dup (pal : List RGBA8) (oa : Bool)
    (cands : List (Nat × Bool)) (st' : BState)
    (rel : BuildRel pal oa (trues cands) initState st')
    (hts : ∀ i ∈ trues cands, i < pal.length)
    (p q : Nat) (hp : p < pal.length) (hq : q < pal.length) (hpq : p ≠ q)
    (hcol : resolvedColor pal p = resolvedColor pal q) :
    st'.next ≤ pal.length - 1 := by
  obtain ⟨ws, hws, hkeys⟩ := rel.vacants
  have hkeys0 : st'.seen.map Prod.fst = ws.map (effColor pal oa) := by
    have h0 : initState.seen.length = 0 := rfl
    rw [h0, List.drop_zero] at hkeys
    exact hkeys
  have hlen : st'.next = ws.length := by
    have h1 : (st'.seen.map Prod.fst).length = st'.next := by
      rw [List.length_map]
      exact rel.good.length_seen
    rw [hkeys0, List.length_map] at h1
    exact h1.symm
  have hnd : (ws.map (effColor pal oa)).Nodup := by
    rw [← hkeys0]
    exact rel.good.keys_nodup
  have hsub : (ws.map (effColor pal oa)).toFinset ⊆
      ((List.range pal.length).map (effColor pal oa)).toFinset := by
    intro c hc
    rw [List.mem_toFinset, List.mem_map] at hc
    obtain ⟨i, hi, rfl⟩ := hc
    rw [List.mem_toFinset, List.mem_map]
    exact ⟨i, List.mem_range.mpr (hts i (hws.mem hi)), rfl⟩
  calc st'.next = ws.length := hlen
    _ = (ws.map (effColor pal oa)).length := (List.length_map _ _).symm
    _ = (ws.map (effColor pal oa)).toFinset.card := (List.toFinset_card_of_nodup hnd).symm
    _ ≤ ((List.range pal.length).map (effColor pal oa)).toFinset.card :=
        Finset.card_le_card hsub
    _ ≤ pal.length - 1 :=
        toFinset_card_map_range_le pal.length _ p q hp hq hpq
          (effColor_congr pal oa p q hcol)

/-- C8 (counterexample part): `dupOorPng` has two identical palette entries
at indices 0 and 1, both referenced by pixel data, yet the output palette is
not strictly shorter than the input — the out-of-range pixel reference 200
claims a compact slot of its own. -/
theorem duplicate_collapse_counterexample :
    dupOorPng.ihdr.color_type =
      ColorType.Indexed [⟨5, 5, 5, 255⟩, ⟨5, 5, 5, 255⟩] ∧
    0 ∈ dupOorPng.data ∧ 1 ∈ dupOorPng.data ∧
    optimized_palette dupOorPng false = some dupOorOut ∧
    dupOorOut.ihdr.color_type =
      ColorType.Indexed [⟨5, 5, 5, 255⟩, ⟨0, 0, 0, 255⟩] ∧
    ¬ (([⟨5, 5, 5, 255⟩, ⟨0, 0, 0, 255⟩] : List RGBA8).length <
        ([⟨5, 5, 5, 255⟩, ⟨5, 5, 5, 255⟩] : List RGBA8).length) := by
  refine ⟨by decide, by decide, by decide, by decide, by decide, by decide⟩

/-- C8 (amended): for an eligible image with two identical in-bounds palette
entries both referenced by the pixel data, and in which every index referenced
by the pixel data or the background chunk is within the palette bounds, the
transform returns a new image, maps both old indices to one common compact
index, and the output palette is strictly shorter than the input palette. -/
theorem duplicate_collapse (png : PngImage) (oa : Bool) (pal : List RGBA8)
    (p q : Nat)
    (hct : png.ihdr.color_type = ColorType.Indexed pal)
    (hbd : png.ihdr.bit_depth ≠ BitDepth.One)
    (hp : p < pal.length) (hq : q < pal.length) (hpq : p ≠ q)
    (hcol : pal.getD p blackColor = pal.getD q blackColor)
    (hpu : computeUsed png.ihdr.bit_depth png.data p = true)
    (hqu : computeUsed png.ihdr.bit_depth png.data q = true)
    (hp256 : p < 256) (hq256 : q < 256)
    (href : ∀ b ∈ png.data, ∀ x ∈ subIndices png.ihdr.bit_depth b,
      x < pal.length ∧ x < 256)
    (hbkin : ∀ idx, (auxGet png.aux_headers "bKGD").bind List.head? = some idx →
      idx < pal.length ∧ idx < 256) :
    (∃ j,
      (runBuild pal oa (candidateList png.aux_headers pal
        (computeUsed png.ihdr.bit_depth png.data))).pmap p = some j ∧
      (runBuild pal oa (candidateList png.aux_headers pal
        (computeUsed png.ihdr.bit_depth png.data))).pmap q = some j) ∧
    (∃ out, optimized_palette png oa = some out) ∧
    (∀ out, optimized_palette png oa = some out →
      ∃ pal2, out.ihdr.color_type = ColorType.Indexed pal2 ∧
        pal2.length < pal.length) := by
  have hbk : ∀ idx, (auxGet png.aux_headers "bKGD").bind List.head? = some idx →
      idx < 256 := fun idx h => (hbkin idx h).2
  have hrel := runBuild_rel pal oa png.aux_headers
    (computeUsed png.ihdr.bit_depth png.data) hbk
  have hpm : p ∈ trues (candidateList png.aux_headers pal
      (computeUsed png.ihdr.bit_depth png.data)) :=
    (mem_trues_candidateList _ _ _ p).mpr (Or.inl ⟨hp256, hpu⟩)
  have hqm : q ∈ trues (candidateList png.aux_headers pal
      (computeUsed png.ihdr.bit_depth png.data)) :=
    (mem_trues_candidateList _ _ _ q).mpr (Or.inl ⟨hq256, hqu⟩)
  obtain ⟨jp, hjp⟩ := Option.ne_none_iff_exists'.mp (hrel.covers p hpm)
  obtain ⟨jq, hjq⟩ := Option.ne_none_iff_exists'.mp (hrel.covers q hqm)
  have hjj : jp = jq := by
    have h1 := hrel.good.map_seen p jp hjp
    have h2 := hrel.good.map_seen q jq hjq
    rw [effColor_congr pal oa p q hcol] at h1
    rw [h1] at h2
    exact Option.some.inj h2
  subst hjj
  have hid : identityMap (runBuild pal oa (candidateList png.aux_headers pal
      (computeUsed png.ihdr.bit_depth png.data))).pmap = false := by
    cases hi : identityMap (runBuild pal oa (candidateList png.aux_headers pal
        (computeUsed png.ihdr.bit_depth png.data))).pmap
    · rfl
    · exfalso
      have h := (identityMap_iff _).mp hi
      have h1 := h p hp256 jp hjp
      have h2 := h q hq256 jp hjq
      exact hpq (h1.symm.trans h2)
  refine ⟨⟨jp, hjp, hjq⟩, ?_, ?_⟩
  · obtain ⟨out, hout⟩ := do_palette_reduction_some_of_ne png pal _ hid
    exact ⟨out, by rw [optimized_palette_eq png oa pal hct hbd]; exact hout⟩
  · intro out hsome
    rw [optimized_palette_eq png oa pal hct hbd] at hsome
    obtain ⟨_, hctout, _⟩ := do_palette_reduction_some _ _ _ _ hsome
    refine ⟨_, hctout, ?_⟩
    have hts : ∀ i ∈ trues (candidateList png.aux_headers pal
        (computeUsed png.ihdr.bit_depth png.data)), i < pal.length := by
      intro i hi
      rcases (mem_trues_candidateList _ _ _ i).mp hi with h | h
      · obtain ⟨b, hb, hx⟩ := (computeUsed_eq_true_iff _ _ _).mp h.2
        exact (href b hb i hx).1
      · exact (hbkin i h.1).1
    have hnext := next_le_of_dup pal oa _ _ hrel hts p q hp hq hpq hcol
    have hpos : 0 < (runBuild pal oa (candidateList png.aux_headers pal
        (computeUsed png.ihdr.bit_depth png.data))).next :=
      Nat.pos_of_ne_zero (fun h0 => by
        have := hrel.good.value_lt_next hjp
        omega)
    rw [reordered_length_eq_next pal oa _ hrel.good hpos]
    omega

/-- Witness for the amended C8 at the in-bounds duplicate image. -/
theorem duplicate_collapse_witness :
    (∃ j,
      (runBuild [⟨5, 5, 5, 255⟩, ⟨5, 5, 5, 255⟩] false
        (candidateList dupPng.aux_headers [⟨5, 5, 5, 255⟩, ⟨5, 5, 5, 255⟩]
          (computeUsed dupPng.ihdr.bit_depth dupPng.data))).pmap 0 = some j ∧
      (runBuild [⟨5, 5, 5, 255⟩, ⟨5, 5, 5, 255⟩] false
        (candidateList dupPng.aux_headers [⟨5, 5, 5, 255⟩, ⟨5, 5, 5, 255⟩]
          (computeUsed dupPng.ihdr.bit_depth dupPng.data))).pmap 1 = some j) ∧
    (∃ out, optimized_palette dupPng false = some out) ∧
    (∀ out, optimized_palette dupPng false = some out →
      ∃ pal2, out.ihdr.color_type = ColorType.Indexed pal2 ∧
        pal2.length < ([⟨5, 5, 5, 255⟩, ⟨5, 5, 5, 255⟩] : List RGBA8).length) :=
  duplicate_collapse dupPng false [⟨5, 5, 5, 255⟩, ⟨5, 5, 5, 255⟩] 0 1
    rfl (by decide) (by decide) (by decide) (by decide) (by decide)
    (by decide) (by decide) (by decide) (by decide)
    (by
      intro b hb x hx
      have hxb : x = b := by
        simpa [dupPng, subIndices] using hx
      subst hxb
      have hb' : x = 0 ∨ x = 1 := by
        simpa [dupPng] using hb
      rcases hb' with rfl | rfl <;> exact ⟨by decide, by decide⟩)
    (by
      intro idx h
      have he : (auxGet dupPng.aux_headers "bKGD").bind List.head? = none := by
        decide
      rw [he] at h
      cases h)

/-! ### Value bounds for the computed mapping, and byte-translation unpacking -/

theorem list_length_le_of_lt (l : List Nat) (K : Nat) (hnd : l.Nodup)
    (h : ∀ i ∈ l, i < K) : l.length ≤ K := by
  have hsub : l.toFinset ⊆ Finset.range K := by
    intro x hx
    rw [List.mem_toFinset] at hx
    exact Finset.mem_range.mpr (h x hx)
  calc l.length = l.toFinset.card := (List.toFinset_card_of_nodup hnd).symm
    _ ≤ (Finset.range K).card := Finset.card_le_card hsub
    _ = K := Finset.card_range K

theorem list_length_le_of_lt_notmem (l : List Nat) (K idx : Nat) (hnd : l.Nodup)
    (h : ∀ i ∈ l, i < K) (hidx : idx < K) (hnm : idx ∉ l) : l.length ≤ K - 1 := by
  have hsub : l.toFinset ⊆ (Finset.range K).erase idx := by
    intro x hx
    rw [List.mem_toFinset] at hx
    exact Finset.mem_erase.mpr ⟨fun e => hnm (e ▸ hx), Finset.mem_range.mpr (h x hx)⟩
  calc l.length = l.toFinset.card := (List.toFinset_card_of_nodup hnd).symm
    _ ≤ ((Finset.range K).erase idx).card := Finset.card_le_card hsub
    _ = K - 1 := by rw [Finset.card_erase_of_mem (Finset.mem_range.mpr hidx),
        Finset.card_range]

/-- Every value the dedup loop assigns to a small old index is itself small,
provided every used index is small. -/
theorem pmap_value_bound (pal : List RGBA8) (oa : Bool)
    (aux : List (String × List Nat)) (used : Nat → Bool) (K : Nat) (hK : K ≤ 256)
    (husd : ∀ i, used i = true → i < K)
    (hbk : ∀ idx, (auxGet aux "bKGD").bind List.head? = some idx → idx < 256) :
    ∀ x, x < K → ∀ j,
      (runBuild pal oa (candidateList aux pal used)).pmap x = some j → j < K := by
  intro x hxK j hj
  have hrel := runBuild_rel pal oa aux used hbk
  have hsortnd := trues_sortedCandidates_nodup pal used
  have hsortlt : ∀ i ∈ trues (sortedCandidates pal used), i < K := by
    intro i hi
    exact husd i ((mem_trues_sortedCandidates pal used i).mp hi).2
  have hsortlen : (trues (sortedCandidates pal used)).length ≤ K :=
    list_length_le_of_lt _ K hsortnd hsortlt
  have hjn := hrel.good.value_lt_next hj
  have hnl := hrel.next_le
  have hin : initState.next = 0 := rfl
  rw [hin] at hnl
  cases hbkgd : (auxGet aux "bKGD").bind List.head? with
  | none =>
    have hcand : candidateList aux pal used = sortedCandidates pal used := by
      unfold candidateList
      rw [hbkgd]
    rw [hcand] at hjn hnl
    omega
  | some idx =>
    by_cases hu : used idx
    · have hcand : candidateList aux pal used = sortedCandidates pal used := by
        unfold candidateList
        rw [hbkgd]
        simp [hu]
      rw [hcand] at hjn hnl
      omega
    · have hcand : candidateList aux pal used =
          sortedCandidates pal used ++ [(idx, true)] := by
        unfold candidateList
        rw [hbkgd]
        simp [hu]
      by_cases hidxK : idx < K
      · have hnm : idx ∉ trues (sortedCandidates pal used) := by
          intro hmem
          rw [(mem_trues_sortedCandidates pal used idx).mp hmem |>.2] at hu
          exact hu rfl
        have hlen1 : (trues (sortedCandidates pal used)).length ≤ K - 1 :=
          list_length_le_of_lt_notmem _ K idx hsortnd hsortlt hidxK hnm
        rw [hcand] at hjn hnl
        rw [trues_append] at hnl
        have hone : (trues [(idx, true)]).length = 1 := by simp [trues]
        rw [List.length_append, hone] at hnl
        omega
      · -- the appended background index is not small: the small index x was
        -- assigned during the sorted prefix, whose counter stays below K
        have hxidx : x ≠ idx := fun e => hidxK (e ▸ hxK)
        rw [hcand] at hj
        rw [runBuild, List.foldl_append, List.foldl_cons, List.foldl_nil] at hj
        have hrelS := build_rel pal oa (sortedCandidates pal used) initState
          (goodB_init pal oa) hsortnd (fun i _ => rfl)
          (by
            have h256 : (trues (sortedCandidates pal used)).length ≤ 256 :=
              le_trans hsortlen hK
            simpa [initState] using h256)
          (fun i hi => lt_of_lt_of_le (hsortlt i hi) hK)
        have hstep : (buildStep pal oa
            ((sortedCandidates pal used).foldl (buildStep pal oa) initState)
            (idx, true)).pmap x =
            ((sortedCandidates pal used).foldl (buildStep pal oa)
              initState).pmap x := by
          cases hlook : seenLookup ((sortedCandidates pal used).foldl
              (buildStep pal oa) initState).seen (effColor pal oa idx) with
          | some j' =>
            rw [buildStep_occ _ _ _ _ _ hlook]
            simp [hxidx]
          | none =>
            rw [buildStep_vac _ _ _ _ hlook]
            simp [hxidx]
        rw [hstep] at hj
        have hjn' := hrelS.good.value_lt_next hj
        have hnl' := hrelS.next_le
        rw [hin] at hnl'
        omega

theorem lor_four_aux : ∀ v0 < 16, ∀ v1 < 16, Nat.lor v0 (v1 * 16) = v0 + v1 * 16 := by
  decide

theorem lor_four_eq (v0 v1 : Nat) (h0 : v0 < 16) (h1 : v1 < 16) :
    Nat.lor v0 (v1 * 16 % 256) = v0 + v1 * 16 := by
  have hm : v1 * 16 % 256 = v1 * 16 := Nat.mod_eq_of_lt (by omega)
  rw [hm]
  exact lor_four_aux v0 h0 v1 h1

theorem lor_two_aux : ∀ a < 4, ∀ b < 4, ∀ c < 4, ∀ d < 4,
    Nat.lor (Nat.lor (Nat.lor a (b * 4)) (c * 16)) (d * 64) =
      a + b * 4 + c * 16 + d * 64 := by
  decide

theorem lor_two_eq (a b c d : Nat) (ha : a < 4) (hb : b < 4) (hc : c < 4)
    (hd : d < 4) :
    Nat.lor (Nat.lor (Nat.lor a (b * 4 % 256)) (c * 16 % 256)) (d * 64 % 256) =
      a + b * 4 + c * 16 + d * 64 := by
  have hm1 : b * 4 % 256 = b * 4 := Nat.mod_eq_of_lt (by omega)
  have hm2 : c * 16 % 256 = c * 16 := Nat.mod_eq_of_lt (by omega)
  have hm3 : d * 64 % 256 = d * 64 := Nat.mod_eq_of_lt (by omega)
  rw [hm1, hm2, hm3]
  exact lor_two_aux a ha b hb c hc d hd

theorem unpack_byteMap_eight (pmap : Nat → Option Nat) (b : Nat) :
    subIndices BitDepth.Eight (byteMapFor BitDepth.Eight pmap b) =
      [(pmap b).getD 0] := rfl

theorem unpack_byteMap_four (pmap : Nat → Option Nat)
    (hbound : ∀ x, x < 16 → ∀ j, pmap x = some j → j < 16) (b : Nat)
    (hb : b < 256) :
    subIndices BitDepth.Four (byteMapFor BitDepth.Four pmap b) =
      [(pmap (b % 16)).getD 0, (pmap (b / 16)).getD 0] := by
  have h0 : (pmap (b % 16)).getD 0 < 16 := by
    cases hp : pmap (b % 16) with
    | none => simp
    | some j => simpa using hbound (b % 16) (by omega) j hp
  have h1 : (pmap (b / 16)).getD 0 < 16 := by
    cases hp : pmap (b / 16) with
    | none => simp
    | some j => simpa using hbound (b / 16) (by omega) j hp
  show subIndices BitDepth.Four
      (Nat.lor ((pmap (b % 16)).getD 0) ((pmap (b / 16)).getD 0 * 16 % 256)) = _
  rw [lor_four_eq _ _ h0 h1]
  simp only [subIndices]
  have e0 : ((pmap (b % 16)).getD 0 + (pmap (b / 16)).getD 0 * 16) % 16 =
      (pmap (b % 16)).getD 0 := by omega
  have e1 : ((pmap (b % 16)).getD 0 + (pmap (b / 16)).getD 0 * 16) / 16 =
      (pmap (b / 16)).getD 0 := by omega
  rw [e0, e1]

theorem unpack_byteMap_two (pmap : Nat → Option Nat)
    (hbound : ∀ x, x < 4 → ∀ j, pmap x = some j → j < 4) (b : Nat)
    (hb : b < 256) :
    subIndices BitDepth.Two (byteMapFor BitDepth.Two pmap b) =
      [(pmap (b % 4)).getD 0, (pmap (b / 4 % 4)).getD 0,
        (pmap (b / 16 % 4)).getD 0, (pmap (b / 64)).getD 0] := by
  have h0 : (pmap (b % 4)).getD 0 < 4 := by
    cases hp : pmap (b % 4) with
    | none => simp
    | some j => simpa using hbound (b % 4) (by omega) j hp
  have h1 : (pmap (b / 4 % 4)).getD 0 < 4 := by
    cases hp : pmap (b / 4 % 4) with
    | none => simp
    | some j => simpa using hbound (b / 4 % 4) (by omega) j hp
  have h2 : (pmap (b / 16 % 4)).getD 0 < 4 := by
    cases hp : pmap (b / 16 % 4) with
    | none => simp
    | some j => simpa using hbound (b / 16 % 4) (by omega) j hp
  have h3 : (pmap (b / 64)).getD 0 < 4 := by
    cases hp : pmap (b / 64) with
    | none => simp
    | some j => simpa using hbound (b / 64) (by omega) j hp
  show subIndices BitDepth.Two
      (Nat.lor (Nat.lor (Nat.lor ((pmap (b % 4)).getD 0)
        ((pmap (b / 4 % 4)).getD 0 * 4 % 256))
        ((pmap (b / 16 % 4)).getD 0 * 16 % 256))
        ((pmap (b / 64)).getD 0 * 64 % 256)) = _
  rw [lor_two_eq _ _ _ _ h0 h1 h2 h3]
  simp only [subIndices]
  have e0 : ((pmap (b % 4)).getD 0 + (pmap (b / 4 % 4)).getD 0 * 4 +
      (pmap (b / 16 % 4)).getD 0 * 16 + (pmap (b / 64)).getD 0 * 64) % 4 =
      (pmap (b % 4)).getD 0 := by omega
  have e1 : ((pmap (b % 4)).getD 0 + (pmap (b / 4 % 4)).getD 0 * 4 +
      (pmap (b / 16 % 4)).getD 0 * 16 + (pmap (b / 64)).getD 0 * 64) / 4 % 4 =
      (pmap (b / 4 % 4)).getD 0 := by omega
  have e2 : ((pmap (b % 4)).getD 0 + (pmap (b / 4 % 4)).getD 0 * 4 +
      (pmap (b / 16 % 4)).getD 0 * 16 + (pmap (b / 64)).getD 0 * 64) / 16 % 4 =
      (pmap (b / 16 % 4)).getD 0 := by omega
  have e3 : ((pmap (b % 4)).getD 0 + (pmap (b / 4 % 4)).getD 0 * 4 +
      (pmap (b / 16 % 4)).getD 0 * 16 + (pmap (b / 64)).getD 0 * 64) / 64 =
      (pmap (b / 64)).getD 0 := by omega
  rw [e0, e1, e2, e3]

theorem used_lt_sixteen (data : List Nat) (hdata : ∀ b ∈ data, b < 256) (i : Nat)
    (h : computeUsed BitDepth.Four data i = true) : i < 16 := by
  obtain ⟨b, hb, hx⟩ := (computeUsed_eq_true_iff _ _ _).mp h
  exact subIndices_four_lt b (hdata b hb) i hx

theorem used_lt_four (data : List Nat) (hdata : ∀ b ∈ data, b < 256) (i : Nat)
    (h : computeUsed BitDepth.Two data i = true) : i < 4 := by
  obtain ⟨b, hb, hx⟩ := (computeUsed_eq_true_iff _ _ _).mp h
  exact subIndices_two_lt b (hdata b hb) i hx

theorem unpack_byteMap_run (png : PngImage) (oa : Bool) (pal : List RGBA8)
    (hbd : png.ihdr.bit_depth ≠ BitDepth.One)
    (hdata : ∀ b ∈ png.data, b < 256)
    (hbk : ∀ idx, (auxGet png.aux_headers "bKGD").bind List.head? = some idx →
      idx < 256)
    (b : Nat) (hb : b < 256) (k : Nat)
    (hk : k < (subIndices png.ihdr.bit_depth b).length) :
    (subIndices png.ihdr.bit_depth
      (byteMapFor png.ihdr.bit_depth
        (runBuild pal oa (candidateList png.aux_headers pal
          (computeUsed png.ihdr.bit_depth png.data))).pmap b)).getD k 0 =
    ((runBuild pal oa (candidateList png.aux_headers pal
      (computeUsed png.ihdr.bit_depth png.data))).pmap
        ((subIndices png.ihdr.bit_depth b).getD k 0)).getD 0 := by
  cases hd : png.ihdr.bit_depth with
  | One => exact absurd hd hbd
  | Eight =>
    rw [hd] at hk
    rw [unpack_byteMap_eight]
    simp only [subIndices, List.length_singleton] at hk
    obtain rfl : k = 0 := by omega
    simp [subIndices]
  | Four =>
    rw [hd] at hk
    have hbound := pmap_value_bound pal oa png.aux_headers
      (computeUsed BitDepth.Four png.data) 16 (by omega)
      (used_lt_sixteen png.data hdata) hbk
    rw [unpack_byteMap_four _ hbound b hb]
    simp only [subIndices, List.length_cons, List.length_nil] at hk
    have hk2 : k = 0 ∨ k = 1 := by omega
    rcases hk2 with rfl | rfl <;> simp [subIndices]
  | Two =>
    rw [hd] at hk
    have hbound := pmap_value_bound pal oa png.aux_headers
      (computeUsed BitDepth.Two png.data) 4 (by omega)
      (used_lt_four png.data hdata) hbk
    rw [unpack_byteMap_two _ hbound b hb]
    simp only [subIndices, List.length_cons, List.length_nil] at hk
    have hk4 : k = 0 ∨ k = 1 ∨ k = 2 ∨ k = 3 := by omega
    rcases hk4 with rfl | rfl | rfl | rfl <;> simp [subIndices]

/-- C5: for every bit depth in {2,4,8} and byte value, unpacking the
translated byte at each sub-field position yields the mapped value of the
corresponding sub-field of the original byte (0 when the old sub-index has no
destination), for the mapping computed by the sort/dedup step. -/
theorem byte_translation_unpack (png : PngImage) (oa : Bool) (pal : List RGBA8)
    (hbd : png.ihdr.bit_depth ≠ BitDepth.One)
    (hdata : ∀ b ∈ png.data, b < 256)
    (hbk : ∀ idx, (auxGet png.aux_headers "bKGD").bind List.head? = some idx →
      idx < 256)
    (b : Nat) (hb : b < 256) (k : Nat)
    (hk : k < (subIndices png.ihdr.bit_depth b).length) :
    (subIndices png.ihdr.bit_depth
      (byteMapFor png.ihdr.bit_depth
        (runBuild pal oa (candidateList png.aux_headers pal
          (computeUsed png.ihdr.bit_depth png.data))).pmap b)).getD k 0 =
    ((runBuild pal oa (candidateList png.aux_headers pal
      (computeUsed png.ihdr.bit_depth png.data))).pmap
        ((subIndices png.ihdr.bit_depth b).getD k 0)).getD 0 :=
  unpack_byteMap_run png oa pal hbd hdata hbk b hb k hk

/-- Witness for C5 at the depth-4 image, byte 37 = 0x25, high nibble. -/
theorem byte_translation_unpack_witness :
    (subIndices fourPng.ihdr.bit_depth
      (byteMapFor fourPng.ihdr.bit_depth
        (runBuild [⟨7, 8, 9, 255⟩] false (candidateList fourPng.aux_headers
          [⟨7, 8, 9, 255⟩]
          (computeUsed fourPng.ihdr.bit_depth fourPng.data))).pmap 37)).getD 1 0 =
    ((runBuild [⟨7, 8, 9, 255⟩] false (candidateList fourPng.aux_headers
      [⟨7, 8, 9, 255⟩]
      (computeUsed fourPng.ihdr.bit_depth fourPng.data))).pmap
        ((subIndices fourPng.ihdr.bit_depth 37).getD 1 0)).getD 0 :=
  byte_translation_unpack fourPng false [⟨7, 8, 9, 255⟩] (by decide)
    (by decide)
    (by
      intro idx h
      have he : (auxGet fourPng.aux_headers "bKGD").bind List.head? = none := by
        decide
      rw [he] at h
      cases h)
    37 (by decide) 1 (by decide)

/-! ### Output palette entries vs. dedup classes (C1 core) -/

theorem lastInBoundsWriter_mem (pal : List RGBA8) (pmap : Nat → Option Nat)
    (j w : Nat) (h : lastInBoundsWriter pal pmap j = some w) :
    w < pal.length ∧ pmap w = some j := by
  unfold lastInBoundsWriter at h
  have hmem := List.mem_of_getLast?_eq_some h
  rw [List.mem_filter] at hmem
  exact ⟨List.mem_range.mp hmem.1, by simpa using hmem.2⟩

theorem value_lt_reordered_length (pal : List RGBA8) (oa : Bool) (st' : BState)
    (hg : GoodB pal oa st') {j : Nat} (hj : j < st'.next) :
    j < (reordered_palette pal st'.pmap).length := by
  rw [reordered_palette_length]
  obtain ⟨i, hi⟩ := hg.surj j hj
  have := value_le_maxIndex st'.pmap i j (hg.dom_small i j hi) hi
  omega

theorem class_alpha_zero (pal : List RGBA8) (st' : BState)
    (hg : GoodB pal true st') {j : Nat} (hj : j < st'.next)
    (ha : (classColor st' j).a = 0) : classColor st' j = ⟨0, 0, 0, 0⟩ := by
  obtain ⟨i, hi⟩ := hg.surj j hj
  have heff : effColor pal true i = classColor st' j := hg.eff_eq_classColor hi
  have hres : (resolvedColor pal i).a = 0 := by
    have := effColor_alpha pal true i
    rw [heff, ha] at this
    exact this.symm
  rw [← heff]
  exact effColor_of_alpha_zero pal i hres

/-- The output palette entry of class `j`: it equals the class color when
the class is not the collapsed-transparent one, and it has alpha 0 when it
is. -/
theorem reordered_entry_class (pal : List RGBA8) (oa : Bool) (st' : BState)
    (hg : GoodB pal oa st') {j : Nat} (hj : j < st'.next) :
    (¬(oa = true ∧ (classColor st' j).a = 0) →
      (reordered_palette pal st'.pmap).getD j blackColor = classColor st' j) ∧
    ((oa = true ∧ (classColor st' j).a = 0) →
      ((reordered_palette pal st'.pmap).getD j blackColor).a = 0) := by
  have hlt := value_lt_reordered_length pal oa st' hg hj
  rw [reordered_getD_eq_lastWriter pal _ hg.dom_small j hlt]
  cases hlast : lastInBoundsWriter pal st'.pmap j with
  | some w =>
    obtain ⟨hwlt, hwj⟩ := lastInBoundsWriter_mem pal _ j w hlast
    have heffw : effColor pal oa w = classColor st' j := hg.eff_eq_classColor hwj
    constructor
    · intro hnc
      have hres : effColor pal oa w = resolvedColor pal w := by
        rcases effColor_eq_cases pal oa w with h | ⟨hoa, _, hcoll⟩
        · exact h
        · exfalso
          apply hnc
          refine ⟨hoa, ?_⟩
          rw [← heffw, hcoll]
      show resolvedColor pal w = classColor st' j
      rw [← hres, heffw]
    · rintro ⟨hoa, hza⟩
      show (resolvedColor pal w).a = 0
      have := effColor_alpha pal oa w
      rw [heffw, hza] at this
      exact this.symm
  | none =>
    -- no in-bounds writer: every writer resolves to opaque black, and so
    -- does the class color; the default entry agrees
    obtain ⟨i, hi⟩ := hg.surj j hj
    have hib : pal.length ≤ i := by
      by_contra hcon
      obtain ⟨w, hw, _, _⟩ :=
        lastInBoundsWriter_spec pal st'.pmap j i (lt_of_not_le hcon) hi
      rw [hw] at hlast
      cases hlast
    have hres : resolvedColor pal i = blackColor := by
      rw [resolvedColor]
      exact List.getD_eq_default _ _ hib
    have heffb : effColor pal oa i = blackColor := by
      refine effColor_of_alpha_ne pal oa i ?_ |>.trans hres
      rw [hres]
      simp [blackColor]
    have hclass : classColor st' j = blackColor := by
      rw [← hg.eff_eq_classColor hi, heffb]
    constructor
    · intro _
      rw [hclass]
    · rintro ⟨_, hza⟩
      rw [hclass] at hza
      simp [blackColor] at hza

/-- C1: whenever the transform returns a new image, decoding any pixel of the
output (unpacking under the same bit depth and resolving in the new palette,
out-of-range giving opaque black) yields the same RGBA color as decoding the
corresponding pixel of the input, except that when `optimize_alpha` is set
and the input color has alpha 0 the output color is only guaranteed to have
alpha 0. -/
theorem decode_preserved (png : PngImage) (oa : Bool) (out : PngImage)
    (pal : List RGBA8)
    (hct : png.ihdr.color_type = ColorType.Indexed pal)
    (hdata : ∀ b ∈ png.data, b < 256)
    (hbk : ∀ idx, (auxGet png.aux_headers "bKGD").bind List.head? = some idx →
      idx < 256)
    (hsome : optimized_palette png oa = some out)
    (n : Nat) (hn : n < png.data.length) (k : Nat)
    (hk : k < (subIndices png.ihdr.bit_depth (png.data.getD n 0)).length) :
    ∃ pal2, out.ihdr.color_type = ColorType.Indexed pal2 ∧
      (¬(oa = true ∧
          (decodePixel pal png.ihdr.bit_depth (png.data.getD n 0) k).a = 0) →
        decodePixel pal2 png.ihdr.bit_depth (out.data.getD n 0) k =
          decodePixel pal png.ihdr.bit_depth (png.data.getD n 0) k) ∧
      ((oa = true ∧
          (decodePixel pal png.ihdr.bit_depth (png.data.getD n 0) k).a = 0) →
        (decodePixel pal2 png.ihdr.bit_depth (out.data.getD n 0) k).a = 0) := by
  by_cases hbd : png.ihdr.bit_depth = BitDepth.One
  · rw [optimized_palette_depth_one png oa hbd] at hsome
    cases hsome
  · rw [optimized_palette_eq png oa pal hct hbd] at hsome
    obtain ⟨_, hctout, _, _, _, _, hdataout, _⟩ :=
      do_palette_reduction_some _ _ _ _ hsome
    have hb : png.data.getD n 0 ∈ png.data := by
      rw [List.getD_eq_getElem _ _ hn]
      exact List.getElem_mem _
    have hb256 := hdata _ hb
    have hrel := runBuild_rel pal oa png.aux_headers
      (computeUsed png.ihdr.bit_depth png.data) hbk
    have hout_byte : out.data.getD n 0 =
        byteMapFor png.ihdr.bit_depth
          (runBuild pal oa (candidateList png.aux_headers pal
            (computeUsed png.ihdr.bit_depth png.data))).pmap
          (png.data.getD n 0) := by
      rw [hdataout, List.getD_eq_getElem _ _ (by simpa using hn),
        List.getElem_map, ← List.getD_eq_getElem _ _ hn]
    have hunpack := unpack_byteMap_run png oa pal hbd hdata hbk
      (png.data.getD n 0) hb256 k hk
    have hmemIdx : (subIndices png.ihdr.bit_depth (png.data.getD n 0)).getD k 0 ∈
        subIndices png.ihdr.bit_depth (png.data.getD n 0) := by
      rw [List.getD_eq_getElem _ _ hk]
      exact List.getElem_mem _
    have hused : computeUsed png.ihdr.bit_depth png.data
        ((subIndices png.ihdr.bit_depth (png.data.getD n 0)).getD k 0) = true :=
      (computeUsed_eq_true_iff _ _ _).mpr ⟨_, hb, hmemIdx⟩
    have hidx256 : (subIndices png.ihdr.bit_depth (png.data.getD n 0)).getD k 0 <
        256 := subIndices_lt_256 _ _ hb256 _ hmemIdx
    obtain ⟨j, hj⟩ := Option.ne_none_iff_exists'.mp
      (hrel.covers _ ((mem_trues_candidateList _ _ _ _).mpr
        (Or.inl ⟨hidx256, hused⟩)))
    have hjn := hrel.good.value_lt_next hj
    have hnewidx : (subIndices png.ihdr.bit_depth (out.data.getD n 0)).getD k 0 =
        j := by
      rw [hout_byte, hunpack, hj]
      rfl
    have hdecode_new : decodePixel
        (reordered_palette pal (runBuild pal oa (candidateList png.aux_headers pal
          (computeUsed png.ihdr.bit_depth png.data))).pmap)
        png.ihdr.bit_depth (out.data.getD n 0) k =
        (reordered_palette pal (runBuild pal oa (candidateList png.aux_headers pal
          (computeUsed png.ihdr.bit_depth png.data))).pmap).getD j blackColor := by
      rw [decodePixel, hnewidx]
      rfl
    have hdecode_old : decodePixel pal png.ihdr.bit_depth (png.data.getD n 0) k =
        resolvedColor pal
          ((subIndices png.ihdr.bit_depth (png.data.getD n 0)).getD k 0) := rfl
    have hclass := hrel.good.eff_eq_classColor hj
    have hEC := reordered_entry_class pal oa _ hrel.good hjn
    refine ⟨_, hctout, ?_, ?_⟩
    · intro hnc
      rw [hdecode_old] at hnc ⊢
      have heff : effColor pal oa
          ((subIndices png.ihdr.bit_depth (png.data.getD n 0)).getD k 0) =
          resolvedColor pal
            ((subIndices png.ihdr.bit_depth (png.data.getD n 0)).getD k 0) := by
        rcases effColor_eq_cases pal oa
            ((subIndices png.ihdr.bit_depth (png.data.getD n 0)).getD k 0) with
          h | ⟨hoa, hza, _⟩
        · exact h
        · exact absurd ⟨hoa, hza⟩ hnc
      have hclass_eq : classColor (runBuild pal oa (candidateList png.aux_headers
          pal (computeUsed png.ihdr.bit_depth png.data))) j =
          resolvedColor pal
            ((subIndices png.ihdr.bit_depth (png.data.getD n 0)).getD k 0) := by
        rw [← hclass, heff]
      have hne : ¬(oa = true ∧ (classColor (runBuild pal oa
          (candidateList png.aux_headers pal
            (computeUsed png.ihdr.bit_depth png.data))) j).a = 0) := by
        rw [hclass_eq]
        exact hnc
      rw [hdecode_new, hEC.1 hne, hclass_eq]
    · rintro ⟨hoa, hza⟩
      subst hoa
      rw [hdecode_old] at hza
      have heff : effColor pal true
          ((subIndices png.ihdr.bit_depth (png.data.getD n 0)).getD k 0) =
          ⟨0, 0, 0, 0⟩ := effColor_of_alpha_zero pal _ hza
      have hclassz : (classColor (runBuild pal true (candidateList
          png.aux_headers pal (computeUsed png.ihdr.bit_depth png.data))) j).a =
          0 := by
        rw [← hclass, heff]
      rw [hdecode_new]
      exact hEC.2 ⟨rfl, hclassz⟩

/-- Witness for C1 at the transparent-pair image with the alpha flag set,
pixel 0 (which has input alpha 0) — and instantiated again at `examplePng`
would give the exact-color case. -/
theorem decode_preserved_witness :
    ∃ pal2, transparentOut.ihdr.color_type = ColorType.Indexed pal2 ∧
      (¬(true = true ∧
          (decodePixel [⟨10, 20, 30, 0⟩, ⟨40, 50, 60, 0⟩]
            transparentPng.ihdr.bit_depth (transparentPng.data.getD 0 0) 0).a =
              0) →
        decodePixel pal2 transparentPng.ihdr.bit_depth
            (transparentOut.data.getD 0 0) 0 =
          decodePixel [⟨10, 20, 30, 0⟩, ⟨40, 50, 60, 0⟩]
            transparentPng.ihdr.bit_depth (transparentPng.data.getD 0 0) 0) ∧
      ((true = true ∧
          (decodePixel [⟨10, 20, 30, 0⟩, ⟨40, 50, 60, 0⟩]
            transparentPng.ihdr.bit_depth (transparentPng.data.getD 0 0) 0).a =
              0) →
        (decodePixel pal2 transparentPng.ihdr.bit_depth
          (transparentOut.data.getD 0 0) 0).a = 0) :=
  decode_preserved transparentPng true transparentOut
    [⟨10, 20, 30, 0⟩, ⟨40, 50, 60, 0⟩] rfl (by decide)
    (by
      intro idx h
      have he : (auxGet transparentPng.aux_headers "bKGD").bind List.head? =
          none := by decide
      rw [he] at h
      cases h)
    (by decide) 0 (by decide) 0 (by decide)

/-! ### Sort-key sign analysis (C4 machinery) -/

theorem colorVal_eq_keyOf (pal : List RGBA8) (i : Nat) :
    colorVal pal i = keyOf (resolvedColor pal i) := rfl

theorem keyOf_nonpos (c : RGBA8) (h : c.a = 0) : keyOf c ≤ 0 := by
  unfold keyOf
  rw [h]
  push_cast
  omega

theorem keyOf_pos (c : RGBA8) (h : c.a ≠ 0) (hr : c.r ≤ 255) (hg : c.g ≤ 255)
    (hb : c.b ≤ 255) : 0 < keyOf c := by
  unfold keyOf
  have h1 : 1 ≤ c.a := Nat.one_le_iff_ne_zero.mpr h
  push_cast
  omega

theorem resolvedColor_bounds (pal : List RGBA8)
    (hpal8 : ∀ c ∈ pal, c.r ≤ 255 ∧ c.g ≤ 255 ∧ c.b ≤ 255 ∧ c.a ≤ 255) (i : Nat) :
    (resolvedColor pal i).r ≤ 255 ∧ (resolvedColor pal i).g ≤ 255 ∧
      (resolvedColor pal i).b ≤ 255 ∧ (resolvedColor pal i).a ≤ 255 := by
  unfold resolvedColor
  by_cases h : i < pal.length
  · rw [List.getD_eq_getElem _ _ h]
    exact hpal8 _ (List.getElem_mem _)
  · rw [List.getD_eq_default _ _ (le_of_not_lt h)]
    exact ⟨by simp [blackColor], by simp [blackColor], by simp [blackColor],
      by simp [blackColor]⟩

theorem reordered_entry_bounds (pal : List RGBA8) (pmap : Nat → Option Nat)
    (hdom : ∀ i j, pmap i = some j → i < 256)
    (hpal8 : ∀ c ∈ pal, c.r ≤ 255 ∧ c.g ≤ 255 ∧ c.b ≤ 255 ∧ c.a ≤ 255)
    (j : Nat) (hj : j < (reordered_palette pal pmap).length) :
    ((reordered_palette pal pmap).getD j blackColor).r ≤ 255 ∧
    ((reordered_palette pal pmap).getD j blackColor).g ≤ 255 ∧
    ((reordered_palette pal pmap).getD j blackColor).b ≤ 255 ∧
    ((reordered_palette pal pmap).getD j blackColor).a ≤ 255 := by
  rw [reordered_getD_eq_lastWriter pal pmap hdom j hj]
  cases hlast : lastInBoundsWriter pal pmap j with
  | none =>
    exact ⟨by simp [blackColor], by simp [blackColor], by simp [blackColor],
      by simp [blackColor]⟩
  | some w =>
    obtain ⟨hwlt, _⟩ := lastInBoundsWriter_mem pal pmap j w hlast
    have hshow : (match some w with
        | some i => pal.getD i blackColor
        | none => blackColor) = pal.getD w blackColor := rfl
    rw [hshow, List.getD_eq_getElem _ _ hwlt]
    exact hpal8 _ (List.getElem_mem _)

/-! ### The second run's usage table (C4 machinery) -/

theorem subIndices_byteMap_run (png : PngImage) (oa : Bool) (pal : List RGBA8)
    (hbd : png.ihdr.bit_depth ≠ BitDepth.One)
    (hdata : ∀ b ∈ png.data, b < 256)
    (hbk : ∀ idx, (auxGet png.aux_headers "bKGD").bind List.head? = some idx →
      idx < 256)
    (b : Nat) (hb : b < 256) :
    subIndices png.ihdr.bit_depth
      (byteMapFor png.ihdr.bit_depth
        (runBuild pal oa (candidateList png.aux_headers pal
          (computeUsed png.ihdr.bit_depth png.data))).pmap b) =
    (subIndices png.ihdr.bit_depth b).map
      (fun y => ((runBuild pal oa (candidateList png.aux_headers pal
        (computeUsed png.ihdr.bit_depth png.data))).pmap y).getD 0) := by
  cases hd : png.ihdr.bit_depth with
  | One => exact absurd hd hbd
  | Eight => rfl
  | Four =>
    have hbound := pmap_value_bound pal oa png.aux_headers
      (computeUsed BitDepth.Four png.data) 16 (by omega)
      (used_lt_sixteen png.data hdata) hbk
    rw [unpack_byteMap_four _ hbound b hb]
    simp [subIndices]
  | Two =>
    have hbound := pmap_value_bound pal oa png.aux_headers
      (computeUsed BitDepth.Two png.data) 4 (by omega)
      (used_lt_four png.data hdata) hbk
    rw [unpack_byteMap_two _ hbound b hb]
    simp [subIndices]

theorem used2_iff (png : PngImage) (oa : Bool) (pal : List RGBA8)
    (hbd : png.ihdr.bit_depth ≠ BitDepth.One)
    (hdata : ∀ b ∈ png.data, b < 256)
    (hbk : ∀ idx, (auxGet png.aux_headers "bKGD").bind List.head? = some idx →
      idx < 256)
    (x : Nat) :
    computeUsed png.ihdr.bit_depth
      (png.data.map (fun b => byteMapFor png.ihdr.bit_depth
        (runBuild pal oa (candidateList png.aux_headers pal
          (computeUsed png.ihdr.bit_depth png.data))).pmap b)) x = true ↔
    ∃ y, computeUsed png.ihdr.bit_depth png.data y = true ∧
      (runBuild pal oa (candidateList png.aux_headers pal
        (computeUsed png.ihdr.bit_depth png.data))).pmap y = some x := by
  have hrel := runBuild_rel pal oa png.aux_headers
    (computeUsed png.ihdr.bit_depth png.data) hbk
  rw [computeUsed_eq_true_iff]
  constructor
  · rintro ⟨b', hb', hx⟩
    rw [List.mem_map] at hb'
    obtain ⟨b, hb, rfl⟩ := hb'
    rw [subIndices_byteMap_run png oa pal hbd hdata hbk b (hdata b hb)] at hx
    rw [List.mem_map] at hx
    obtain ⟨y, hy, hyx⟩ := hx
    have hyused : computeUsed png.ihdr.bit_depth png.data y = true :=
      (computeUsed_eq_true_iff _ _ _).mpr ⟨b, hb, hy⟩
    have hy256 : y < 256 := subIndices_lt_256 _ b (hdata b hb) y hy
    obtain ⟨j, hj⟩ := Option.ne_none_iff_exists'.mp
      (hrel.covers y ((mem_trues_candidateList _ _ _ y).mpr
        (Or.inl ⟨hy256, hyused⟩)))
    refine ⟨y, hyused, ?_⟩
    rw [hj]
    rw [hj] at hyx
    simp at hyx
    rw [hyx]
  · rintro ⟨y, hyused, hyx⟩
    obtain ⟨b, hb, hy⟩ := (computeUsed_eq_true_iff _ _ _).mp hyused
    refine ⟨byteMapFor png.ihdr.bit_depth
      (runBuild pal oa (candidateList png.aux_headers pal
        (computeUsed png.ihdr.bit_depth png.data))).pmap b,
      List.mem_map.mpr ⟨b, hb, rfl⟩, ?_⟩
    rw [subIndices_byteMap_run png oa pal hbd hdata hbk b (hdata b hb)]
    rw [List.mem_map]
    exact ⟨y, hy, by rw [hyx]; rfl⟩

/-! ### The identity run (C4 machinery) -/

theorem seenLookup_map_range (pal2 : List RGBA8) (oa : Bool) (n : Nat) (c : RGBA8) :
    seenLookup ((List.range n).map
      (fun j => (effColor pal2 oa j, j))) c = none ↔
      ∀ j < n, effColor pal2 oa j ≠ c := by
  rw [seenLookup_eq_none_iff]
  simp only [List.map_map, Function.comp_def, List.mem_map, List.mem_range]
  constructor
  · intro h j hj hc
    exact h ⟨j, hj, hc⟩
  · rintro h ⟨j, hj, hc⟩
    exact h j hj hc

theorem range_drop_cons (K n : Nat) (h : n < K) :
    (List.range K).drop n = n :: (List.range K).drop (n + 1) := by
  rw [List.drop_eq_getElem_cons (by simpa using h)]
  simp

theorem build_ident (pal2 : List RGBA8) (oa : Bool) (K : Nat) (hK : K ≤ 256)
    (hinj : ∀ j j', j < K → j' < K →
      effColor pal2 oa j = effColor pal2 oa j' → j = j') :
    ∀ (l : List (Nat × Bool)) (n : Nat) (st : BState),
      (∀ x, st.pmap x = if x < n then some x else none) →
      st.seen = (List.range n).map (fun j => (effColor pal2 oa j, j)) →
      st.next = n → n ≤ K →
      trues l = (List.range K).drop n →
      ∀ x, (l.foldl (buildStep pal2 oa) st).pmap x =
        if x < K then some x else none
  | [], n, st, hmap, _, _, hnK, htr => by
    have hlen : ((List.range K).drop n).length = 0 := by
      rw [← htr]
      simp [trues]
    rw [List.length_drop, List.length_range] at hlen
    have : n = K := by omega
    subst this
    intro x
    rw [List.foldl_nil]
    exact hmap x
  | (i, false) :: l, n, st, hmap, hseen, hnext, hnK, htr => by
    rw [trues_cons_false] at htr
    rw [List.foldl_cons, buildStep_false]
    exact build_ident pal2 oa K hK hinj l n st hmap hseen hnext hnK htr
  | (i, true) :: l, n, st, hmap, hseen, hnext, hnK, htr => by
    rw [trues_cons_true] at htr
    have hnltK : n < K := by
      by_contra hcon
      have : n = K := by omega
      subst this
      rw [List.drop_eq_nil_of_le (by simp)] at htr
      cases htr
    rw [range_drop_cons K n hnltK] at htr
    obtain ⟨rfl, htl⟩ : i = n ∧ trues l = (List.range K).drop (n + 1) := by
      refine ⟨?_, ?_⟩
      · exact (List.cons.injEq _ _ _ _ ▸ htr).1
      · exact (List.cons.injEq _ _ _ _ ▸ htr).2
    have hlook : seenLookup st.seen (effColor pal2 oa i) = none := by
      rw [hseen, seenLookup_map_range]
      intro j hj hc
      have := hinj j i (lt_of_lt_of_le hj (le_of_lt hnltK)) hnltK hc
      omega
    rw [List.foldl_cons, buildStep_vac pal2 oa st i hlook]
    have hmod : st.next % 256 = st.next := Nat.mod_eq_of_lt (by omega)
    rw [hmod, hnext]
    refine build_ident pal2 oa K hK hinj l (i + 1) _ ?_ ?_ rfl (by omega) htl
    · intro x
      simp only
      rw [hmap x]
      by_cases hx : x = i
      · subst hx
        simp
      · rw [if_neg hx]
        by_cases hlt : x < i
        · rw [if_pos hlt, if_pos (by omega)]
        · rw [if_neg hlt, if_neg (by omega)]
    · simp only
      rw [hseen, List.range_succ]
      simp

/-! ### Classes of the first run seen from the second run (C4 machinery) -/

theorem class_eq_eff_ws (pal : List RGBA8) (oa : Bool) (st : BState)
    (ws : List Nat)
    (hkeys : st.seen.map Prod.fst = ws.map (effColor pal oa)) (j : Nat)
    (hj : j < st.seen.length) :
    classColor st j = effColor pal oa (ws.getD j 0) := by
  have hwlen : ws.length = st.seen.length := by
    have := congrArg List.length hkeys
    simpa using this.symm
  have hjw : j < ws.length := by omega
  unfold classColor
  rw [List.getD_eq_getElem _ _ hj, List.getD_eq_getElem _ _ hjw]
  have hj1 : j < (st.seen.map Prod.fst).length := by simpa using hj
  have hj2 : j < (ws.map (effColor pal oa)).length := by simpa [← hwlen] using hjw
  calc st.seen[j].1
      = (st.seen.map Prod.fst)[j] := by simp
    _ = (ws.map (effColor pal oa))[j] := by
        rw [List.getElem_of_eq hkeys]
    _ = effColor pal oa ws[j] := by simp

theorem classColor_eq_of_seen_append (st stS : BState)
    (t : List (RGBA8 × Nat)) (h : st.seen = stS.seen ++ t) (j : Nat)
    (hj : j < stS.seen.length) : classColor st j = classColor stS j := by
  unfold classColor
  rw [h, List.getD_eq_getElem _ _ (by rw [List.length_append]; omega),
    List.getD_eq_getElem _ _ hj]
  rw [List.getElem_append_left hj]

theorem eff2_eq_class (pal : List RGBA8) (oa : Bool) (st : BState)
    (hg : GoodB pal oa st) {j : Nat} (hj : j < st.next) :
    effColor (reordered_palette pal st.pmap) oa j = classColor st j := by
  have hEC := reordered_entry_class pal oa st hg hj
  have hres2 : resolvedColor (reordered_palette pal st.pmap) j =
      (reordered_palette pal st.pmap).getD j blackColor := rfl
  by_cases hc : oa = true ∧ (classColor st j).a = 0
  · obtain ⟨hoa, hza⟩ := hc
    subst hoa
    have hentry_a : ((reordered_palette pal st.pmap).getD j blackColor).a = 0 :=
      hEC.2 ⟨rfl, hza⟩
    have heq : effColor (reordered_palette pal st.pmap) true j = ⟨0, 0, 0, 0⟩ :=
      effColor_of_alpha_zero _ j hentry_a
    rw [heq, class_alpha_zero pal st hg hj hza]
  · have hentry := hEC.1 hc
    have heq : effColor (reordered_palette pal st.pmap) oa j =
        resolvedColor (reordered_palette pal st.pmap) j := by
      rcases effColor_eq_cases (reordered_palette pal st.pmap) oa j with
        h | ⟨hoa, hza, _⟩
      · exact h
      · exfalso
        apply hc
        refine ⟨hoa, ?_⟩
        rw [hres2, hentry] at hza
        exact hza
    rw [heq, hres2, hentry]

theorem next_pos_of_not_identity (st : BState) (pal : List RGBA8) (oa : Bool)
    (hg : GoodB pal oa st) (hid : identityMap st.pmap = false) : 0 < st.next := by
  by_contra h0
  have hz : st.next = 0 := by omega
  have : identityMap st.pmap = true := by
    rw [identityMap_iff]
    intro i _ j hj
    have := hg.value_lt_next hj
    omega
  rw [this] at hid
  cases hid

/-- Keys of the output palette are nondecreasing on the pixel classes: class
order is first-seen order along the sorted candidates. -/
theorem entry_key_mono (pal : List RGBA8) (oa : Bool) (st : BState)
    (hg : GoodB pal oa st)
    (hpal8 : ∀ c ∈ pal, c.r ≤ 255 ∧ c.g ≤ 255 ∧ c.b ≤ 255 ∧ c.a ≤ 255)
    (m : Nat) (hm : m ≤ st.next)
    (ws : List Nat)
    (hwcls : ∀ j, j < m → classColor st j = effColor pal oa (ws.getD j 0))
    (hwlen : m ≤ ws.length)
    (hwpair : ws.Pairwise (fun i i' => colorVal pal i ≤ colorVal pal i')) :
    ∀ j j', j ≤ j' → j' < m →
      colorVal (reordered_palette pal st.pmap) j ≤
        colorVal (reordered_palette pal st.pmap) j' := by
  have hkey : ∀ j, j < m →
      (¬(oa = true ∧ (classColor st j).a = 0) ∧
        colorVal (reordered_palette pal st.pmap) j = colorVal pal (ws.getD j 0)) ∨
      ((oa = true ∧ (classColor st j).a = 0) ∧
        colorVal (reordered_palette pal st.pmap) j ≤ 0 ∧
        (resolvedColor pal (ws.getD j 0)).a = 0) := by
    intro j hj
    have hjn : j < st.next := lt_of_lt_of_le hj hm
    have hEC := reordered_entry_class pal oa st hg hjn
    have hcls := hwcls j hj
    by_cases hc : oa = true ∧ (classColor st j).a = 0
    · right
      refine ⟨hc, ?_, ?_⟩
      · rw [colorVal_eq_keyOf]
        exact keyOf_nonpos _ (hEC.2 hc)
      · have := effColor_alpha pal oa (ws.getD j 0)
        rw [← hcls] at this
        rw [← this]
        exact hc.2
    · left
      refine ⟨hc, ?_⟩
      have hentry := hEC.1 hc
      have heffres : effColor pal oa (ws.getD j 0) =
          resolvedColor pal (ws.getD j 0) := by
        rcases effColor_eq_cases pal oa (ws.getD j 0) with h | ⟨hoa, hza, hcoll⟩
        · exact h
        · exfalso
          apply hc
          refine ⟨hoa, ?_⟩
          rw [hcls, hcoll]
      rw [colorVal_eq_keyOf, colorVal_eq_keyOf]
      have : resolvedColor (reordered_palette pal st.pmap) j =
          classColor st j := hentry
      rw [this, hcls, heffres]
  have hpairpos : ∀ j j', j < j' → j' < m →
      colorVal pal (ws.getD j 0) ≤ colorVal pal (ws.getD j' 0) := by
    intro j j' hjj hj'
    have h1 : j < ws.length := by omega
    have h2 : j' < ws.length := by omega
    have := List.pairwise_iff_getElem.mp hwpair j j' h1 h2 hjj
    rwa [List.getD_eq_getElem _ _ h1, List.getD_eq_getElem _ _ h2]
  intro j j' hjj hj'
  rcases Nat.lt_or_ge j j' with hlt | hge
  · have hj : j < m := by omega
    rcases hkey j hj with ⟨hncJ, hkJ⟩ | ⟨hcJ, hkJ, haJ⟩
    · rcases hkey j' hj' with ⟨hncJ', hkJ'⟩ | ⟨hcJ', hkJ', haJ'⟩
      · rw [hkJ, hkJ']
        exact hpairpos j j' hlt hj'
      · -- j uncollapsed before a collapsed class: impossible, transparent
        -- candidates sort first
        exfalso
        obtain ⟨hoa, _⟩ := hcJ'
        subst hoa
        have hjn : j < st.next := lt_of_lt_of_le hj hm
        have haJ : (resolvedColor pal (ws.getD j 0)).a ≠ 0 := by
          intro hza
          apply hncJ
          refine ⟨rfl, ?_⟩
          have := effColor_alpha pal true (ws.getD j 0)
          rw [← hwcls j hj] at this
          rw [this, hza]
        have hposJ : 0 < colorVal pal (ws.getD j 0) := by
          rw [colorVal_eq_keyOf]
          have hb := resolvedColor_bounds pal hpal8 (ws.getD j 0)
          exact keyOf_pos _ haJ hb.1 hb.2.1 hb.2.2.1
        have hnegJ' : colorVal pal (ws.getD j' 0) ≤ 0 := by
          rw [colorVal_eq_keyOf]
          exact keyOf_nonpos _ haJ'
        have := hpairpos j j' hlt hj'
        omega
    · rcases hkey j' hj' with ⟨hncJ', hkJ'⟩ | ⟨hcJ', hkJ', _⟩
      · -- collapsed class before an uncollapsed one: the entry key of the
        -- collapsed class is nonpositive, the other strictly positive
        obtain ⟨hoa, _⟩ := hcJ
        have hposJ' : 0 < colorVal (reordered_palette pal st.pmap) j' := by
          have hjn' : j' < st.next := lt_of_lt_of_le hj' hm
          have hEC' := reordered_entry_class pal oa st hg hjn'
          have hentry' := hEC'.1 hncJ'
          have hea : (classColor st j').a ≠ 0 := by
            intro hza
            exact hncJ' ⟨hoa, hza⟩
          have hlt2 : j' < (reordered_palette pal st.pmap).length :=
            value_lt_reordered_length pal oa st hg hjn'
          have hbnds := reordered_entry_bounds pal st.pmap hg.dom_small hpal8 j'
            hlt2
          rw [colorVal_eq_keyOf]
          have hres' : resolvedColor (reordered_palette pal st.pmap) j' =
              (reordered_palette pal st.pmap).getD j' blackColor := rfl
          rw [hres']
          refine keyOf_pos _ ?_ hbnds.1 hbnds.2.1 hbnds.2.2.1
          rw [hentry']
          exact hea
        omega
      · -- two collapsed classes are the same class
        exfalso
        obtain ⟨hoa, hzaJ⟩ := hcJ
        obtain ⟨_, hzaJ'⟩ := hcJ'
        subst hoa
        have hjn : j < st.next := lt_of_lt_of_le hj hm
        have hjn' : j' < st.next := lt_of_lt_of_le hj' hm
        have e1 := class_alpha_zero pal st hg hjn hzaJ
        have e2 := class_alpha_zero pal st hg hjn' hzaJ'
        have := hg.classColor_inj hjn hjn' (e1.trans e2.symm)
        omega
  · have : j = j' := by omega
    subst this
    exact le_refl _

theorem range_split (m n : Nat) (h : m ≤ n) :
    List.range n = List.range m ++ List.range' m (n - m) := by
  rw [List.range_eq_range', List.range_eq_range']
  have h2 : n = (n - m) + m := by omega
  conv_lhs => rw [h2]
  rw [← List.range'_append_1]
  simp

theorem filter_range_eq (p : Nat → Bool) (m n : Nat) (hm : m ≤ n)
    (hp : ∀ x, p x = true ↔ x < m) :
    (List.range n).filter p = List.range m := by
  rw [range_split m n hm, List.filter_append]
  have h1 : (List.range m).filter p = List.range m := by
    rw [List.filter_eq_self]
    intro x hx
    exact (hp x).mpr (List.mem_range.mp hx)
  have h2 : (List.range' m (n - m)).filter p = [] := by
    rw [List.filter_eq_nil_iff]
    intro x hx hpx
    have hxm := (hp x).mp hpx
    obtain ⟨i, hi, rfl⟩ := List.mem_range'.mp hx
    omega
  rw [h1, h2, List.append_nil]

/-- Stability of the second sort: when the used indices are exactly `0..m-1`
and the palette keys are nondecreasing there, the used-flagged candidates of
the sorted list are exactly `0..m-1` in order. -/
theorem trues_sorted_range (pal2 : List RGBA8) (used2 : Nat → Bool) (m : Nat)
    (hm : m ≤ 256)
    (hused : ∀ x, used2 x = true ↔ x < m)
    (hmono : ∀ j j', j ≤ j' → j' < m → colorVal pal2 j ≤ colorVal pal2 j') :
    trues (sortedCandidates pal2 used2) = List.range m := by
  have hPeq : (List.range m).map (fun j => (j, true)) =
      (preSort used2).take m := by
    unfold preSort
    rw [← List.map_take, List.take_range, min_eq_left hm]
    apply List.map_congr_left
    intro j hj
    rw [(hused j).mpr (List.mem_range.mp hj)]
  have hPsub : ((List.range m).map (fun j => (j, true))).Sublist
      (preSort used2) := by
    rw [hPeq]
    exact List.take_sublist _ _
  have hPpair : ((List.range m).map (fun j => (j, true))).Pairwise
      (candRel pal2) := by
    rw [List.pairwise_map]
    refine (List.pairwise_lt_range m).imp_of_mem ?_
    intro a b ha hb hab
    exact hmono a b (le_of_lt hab) (List.mem_range.mp hb)
  have hPsort : ((List.range m).map (fun j => (j, true))).Sublist
      (sortedCandidates pal2 used2) :=
    List.sublist_insertionSort hPpair hPsub
  have hPtrue : ((List.range m).map (fun j => (j, true))).filter
      (fun c => c.2) = (List.range m).map (fun j => (j, true)) := by
    rw [List.filter_eq_self]
    intro x hx
    rw [List.mem_map] at hx
    obtain ⟨j, _, rfl⟩ := hx
    rfl
  have hfsub : ((List.range m).map (fun j => (j, true))).Sublist
      ((sortedCandidates pal2 used2).filter (fun c => c.2)) := by
    rw [← hPtrue]
    exact hPsort.filter _
  have hflen : ((sortedCandidates pal2 used2).filter (fun c => c.2)).length =
      m := by
    have hperm : List.Perm
        ((sortedCandidates pal2 used2).filter (fun c => c.2))
        ((preSort used2).filter (fun c => c.2)) :=
      (sortedCandidates_perm pal2 used2).filter _
    rw [hperm.length_eq]
    have := trues_preSort used2
    unfold trues at this
    have hlen := congrArg List.length this
    rw [List.length_map] at hlen
    rw [hlen, filter_range_eq used2 m 256 hm hused, List.length_range]
  have hPfull : (List.range m).map (fun j => (j, true)) =
      (sortedCandidates pal2 used2).filter (fun c => c.2) := by
    apply hfsub.eq_of_length
    rw [hflen, List.length_map, List.length_range]
  unfold trues
  rw [← hPfull, List.map_map]
  exact List.map_id _

theorem candidateList_of_bind_none (aux : List (String × List Nat))
    (pal : List RGBA8) (used : Nat → Bool)
    (h : (auxGet aux "bKGD").bind List.head? = none) :
    candidateList aux pal used = sortedCandidates pal used := by
  unfold candidateList
  rw [h]

theorem candidateList_of_used (aux : List (String × List Nat))
    (pal : List RGBA8) (used : Nat → Bool) (idx : Nat)
    (h : (auxGet aux "bKGD").bind List.head? = some idx)
    (hu : used idx = true) :
    candidateList aux pal used = sortedCandidates pal used := by
  unfold candidateList
  rw [h]
  simp [hu]

theorem candidateList_of_unused (aux : List (String × List Nat))
    (pal : List RGBA8) (used : Nat → Bool) (idx : Nat)
    (h : (auxGet aux "bKGD").bind List.head? = some idx)
    (hu : used idx = false) :
    candidateList aux pal used = sortedCandidates pal used ++ [(idx, true)] := by
  unfold candidateList
  rw [h]
  simp [hu]

/-- The master induction instantiated at the sorted candidates alone (the
prefix of the loop before the background index is appended). -/
theorem runBuild_sorted_rel (pal : List RGBA8) (oa : Bool) (used : Nat → Bool) :
    BuildRel pal oa (trues (sortedCandidates pal used)) initState
      ((sortedCandidates pal used).foldl (buildStep pal oa) initState) := by
  apply build_rel pal oa _ initState (goodB_init pal oa)
    (trues_sortedCandidates_nodup pal used)
    (fun i _ => rfl)
  · have h1 := trues_sortedCandidates_length pal used
    have h2 : ((List.range 256).filter (fun i => used i)).length ≤ 256 :=
      le_trans (List.Sublist.length_le (List.filter_sublist _)) (by simp)
    simpa [initState] using le_trans (le_of_eq h1) h2
  · exact fun i hi => ((mem_trues_sortedCandidates pal used i).mp hi).1

theorem bkgd_bind_out (aux : List (String × List Nat)) (pmap : Nat → Option Nat)
    (idx j : Nat)
    (h : (auxGet aux "bKGD").bind List.head? = some idx)
    (hpm : pmap idx = some j) :
    (auxGet (updateBkgd aux pmap) "bKGD").bind List.head? = some j := by
  cases hga : auxGet aux "bKGD" with
  | none => rw [hga] at h; cases h
  | some bs =>
    rw [hga] at h
    simp only [Option.some_bind] at h
    simp only [updateBkgd, hga, h, hpm]
    rw [auxGet_auxInsert_self]
    rfl

theorem updateBkgd_eq_of_bind_none (aux : List (String × List Nat))
    (pmap : Nat → Option Nat)
    (h : (auxGet aux "bKGD").bind List.head? = none) :
    updateBkgd aux pmap = aux := by
  cases hga : auxGet aux "bKGD" with
  | none => simp only [updateBkgd, hga]
  | some bs =>
    rw [hga] at h
    simp only [Option.some_bind] at h
    simp only [updateBkgd, hga, h]

/-- When the used table of a run is exactly an initial segment `0..K-1`, the
candidate fold assigns the identity mapping and the reduction signals no
change. -/
theorem run2_identity (pal2 : List RGBA8) (oa : Bool)
    (l : List (Nat × Bool)) (K : Nat) (hK : K ≤ 256)
    (hinj : ∀ j j', j < K → j' < K →
      effColor pal2 oa j = effColor pal2 oa j' → j = j')
    (htr : trues l = List.range K) :
    identityMap (runBuild pal2 oa l).pmap = true := by
  have hpm := build_ident pal2 oa K hK hinj l 0 initState
    (fun x => by simp [initState])
    (by simp [initState])
    rfl (Nat.zero_le K)
    (by rw [List.drop_zero]; exact htr)
  rw [identityMap_iff]
  intro i hi j hj
  have hj' : (l.foldl (buildStep pal2 oa) initState).pmap i = some j := hj
  rw [hpm i] at hj'
  by_cases hiK : i < K
  · rw [if_pos hiK] at hj'
    exact (Option.some.inj hj').symm
  · rw [if_neg hiK] at hj'
    cases hj'

theorem buildRel_keys (pal : List RGBA8) (oa : Bool) (ts : List Nat)
    (stX : BState) (hrel : BuildRel pal oa ts initState stX) :
    ∃ ws : List Nat, ws.Sublist ts ∧
      stX.seen.map Prod.fst = ws.map (effColor pal oa) := by
  obtain ⟨ws, hsub, hkeys⟩ := hrel.vacants
  refine ⟨ws, hsub, ?_⟩
  have h0 : initState.seen.length = 0 := rfl
  rw [h0, List.drop_zero] at hkeys
  exact hkeys

theorem keys_to_wcls (pal : List RGBA8) (oa : Bool) (stX : BState)
    (hgX : GoodB pal oa stX) (ws : List Nat)
    (hkeys : stX.seen.map Prod.fst = ws.map (effColor pal oa)) :
    (∀ j, j < stX.next → classColor stX j = effColor pal oa (ws.getD j 0)) ∧
      stX.next ≤ ws.length := by
  have hlen : ws.length = stX.seen.length := by
    have := congrArg List.length hkeys
    simpa using this.symm
  have hsl := hgX.length_seen
  refine ⟨?_, by omega⟩
  intro j hj
  exact class_eq_eff_ws pal oa stX ws hkeys j (by omega)

/-- C4: `optimized_palette` is idempotent — on every indexed image with bit
depth in {2,4,8} (byte-valued data, background byte and palette channels),
whenever the transform returns a new image, running it again on that image
with the same `optimize_alpha` flag returns `none` (the no-change signal). -/
theorem palette_reduction_idempotent (png : PngImage) (oa : Bool)
    (pal : List RGBA8) (out : PngImage)
    (hct : png.ihdr.color_type = ColorType.Indexed pal)
    (hbd : png.ihdr.bit_depth ≠ BitDepth.One)
    (hdata : ∀ b ∈ png.data, b < 256)
    (hbk : ∀ idx, (auxGet png.aux_headers "bKGD").bind List.head? = some idx →
      idx < 256)
    (hpal8 : ∀ c ∈ pal, c.r ≤ 255 ∧ c.g ≤ 255 ∧ c.b ≤ 255 ∧ c.a ≤ 255)
    (hsome : optimized_palette png oa = some out) :
    optimized_palette out oa = none := by
  rw [optimized_palette_eq png oa pal hct hbd] at hsome
  set used1 := computeUsed png.ihdr.bit_depth png.data with hu1
  set cands1 := candidateList png.aux_headers pal used1 with hc1
  set st := runBuild pal oa cands1 with hst
  obtain ⟨hid1, hct2, hbd2, hw2, hh2, hi2, hdata2, haux2⟩ :=
    do_palette_reduction_some png pal st.pmap out hsome
  set pal2 := reordered_palette pal st.pmap with hp2
  have hbd2' : out.ihdr.bit_depth ≠ BitDepth.One := by
    rw [hbd2]
    exact hbd
  have hrel := runBuild_rel pal oa png.aux_headers used1 hbk
  rw [← hc1, ← hst] at hrel
  have hg : GoodB pal oa st := hrel.good
  have hlen1 : (trues cands1).length ≤ 256 := by
    rw [hc1]
    exact trues_candidateList_length png.aux_headers pal used1 hbk
  have hN : st.next ≤ 256 := by
    have h1 := hrel.next_le
    have h0 : initState.next = 0 := rfl
    omega
  have hinj2 : ∀ j j', j < st.next → j' < st.next →
      effColor pal2 oa j = effColor pal2 oa j' → j = j' := by
    rw [hp2]
    intro j j' hj hj' he
    rw [eff2_eq_class pal oa st hg hj, eff2_eq_class pal oa st hg hj'] at he
    exact hg.classColor_inj hj hj' he
  rw [optimized_palette_eq out oa pal2 hct2 hbd2', do_palette_reduction_none_iff]
  set used2' := computeUsed out.ihdr.bit_depth out.data with hu2
  have hIff : ∀ x, used2' x = true ↔
      ∃ y, used1 y = true ∧ st.pmap y = some x := by
    intro x
    rw [hu2, hbd2, hdata2]
    have h := used2_iff png oa pal hbd hdata hbk x
    rw [← hu1, ← hc1, ← hst] at h
    exact h
  apply run2_identity pal2 oa _ st.next hN hinj2
  cases hbkgd : (auxGet png.aux_headers "bKGD").bind List.head? with
  | none =>
    have hcand1 : cands1 = sortedCandidates pal used1 := by
      rw [hc1]
      exact candidateList_of_bind_none _ _ _ hbkgd
    have hmchar : ∀ x, used2' x = true ↔ x < st.next := by
      intro x
      rw [hIff x]
      constructor
      · rintro ⟨y, _, hpy⟩
        exact hg.value_lt_next hpy
      · intro hx
        obtain ⟨i, hpi⟩ := hg.surj x hx
        rcases hrel.dom_from i x hpi with hcon | hmem
        · exact absurd rfl hcon
        · rw [hcand1] at hmem
          exact ⟨i, ((mem_trues_sortedCandidates pal used1 i).mp hmem).2, hpi⟩
    obtain ⟨ws, hsub, hkeys⟩ := buildRel_keys pal oa _ st hrel
    obtain ⟨hwcls, hwlen⟩ := keys_to_wcls pal oa st hg ws hkeys
    have hwpair : ws.Pairwise fun i i' => colorVal pal i ≤ colorVal pal i' := by
      rw [hcand1] at hsub
      exact (trues_sortedCandidates_pairwise pal used1).sublist hsub
    have haux1 : out.aux_headers = png.aux_headers := by
      rw [haux2]
      exact updateBkgd_eq_of_bind_none png.aux_headers st.pmap hbkgd
    have hbind2 : (auxGet out.aux_headers "bKGD").bind List.head? = none := by
      rw [haux1]
      exact hbkgd
    have hc2 : candidateList out.aux_headers pal2 used2' =
        sortedCandidates pal2 used2' :=
      candidateList_of_bind_none _ _ _ hbind2
    rw [hc2, hp2]
    exact trues_sorted_range _ used2' st.next hN hmchar
      (entry_key_mono pal oa st hg hpal8 st.next (le_refl _) ws hwcls hwlen hwpair)
  | some idx =>
    by_cases hu : used1 idx = true
    · have hcand1 : cands1 = sortedCandidates pal used1 := by
        rw [hc1]
        exact candidateList_of_used _ _ _ idx hbkgd hu
      have hmchar : ∀ x, used2' x = true ↔ x < st.next := by
        intro x
        rw [hIff x]
        constructor
        · rintro ⟨y, _, hpy⟩
          exact hg.value_lt_next hpy
        · intro hx
          obtain ⟨i, hpi⟩ := hg.surj x hx
          rcases hrel.dom_from i x hpi with hcon | hmem
          · exact absurd rfl hcon
          · rw [hcand1] at hmem
            exact ⟨i, ((mem_trues_sortedCandidates pal used1 i).mp hmem).2, hpi⟩
      obtain ⟨ws, hsub, hkeys⟩ := buildRel_keys pal oa _ st hrel
      obtain ⟨hwcls, hwlen⟩ := keys_to_wcls pal oa st hg ws hkeys
      have hwpair : ws.Pairwise fun i i' => colorVal pal i ≤ colorVal pal i' := by
        rw [hcand1] at hsub
        exact (trues_sortedCandidates_pairwise pal used1).sublist hsub
      have hidx256 : idx < 256 := hbk idx hbkgd
      have hmem1 : idx ∈ trues cands1 := by
        rw [hcand1]
        exact (mem_trues_sortedCandidates pal used1 idx).mpr ⟨hidx256, hu⟩
      obtain ⟨j0, hj0⟩ := Option.ne_none_iff_exists'.mp (hrel.covers idx hmem1)
      have hj0lt : j0 < st.next := hg.value_lt_next hj0
      have hbind2 : (auxGet out.aux_headers "bKGD").bind List.head? = some j0 := by
        rw [haux2]
        exact bkgd_bind_out png.aux_headers st.pmap idx j0 hbkgd hj0
      have hc2 : candidateList out.aux_headers pal2 used2' =
          sortedCandidates pal2 used2' :=
        candidateList_of_used _ _ _ j0 hbind2 ((hmchar j0).mpr hj0lt)
      rw [hc2, hp2]
      exact trues_sorted_range _ used2' st.next hN hmchar
        (entry_key_mono pal oa st hg hpal8 st.next (le_refl _) ws hwcls hwlen
          hwpair)
    · have hu' : used1 idx = false := by
        cases hC : used1 idx
        · rfl
        · exact absurd hC hu
      have hcand1 : cands1 = sortedCandidates pal used1 ++ [(idx, true)] := by
        rw [hc1]
        exact candidateList_of_unused _ _ _ idx hbkgd hu'
      have hrelS := runBuild_sorted_rel pal oa used1
      set stS := (sortedCandidates pal used1).foldl (buildStep pal oa) initState
        with hstS
      have hgS : GoodB pal oa stS := hrelS.good
      have hsteq : st = buildStep pal oa stS (idx, true) := by
        rw [hst, hcand1, hstS]
        show (sortedCandidates pal used1 ++ [(idx, true)]).foldl
          (buildStep pal oa) initState = _
        rw [List.foldl_append, List.foldl_cons, List.foldl_nil]
      cases hlook : seenLookup stS.seen (effColor pal oa idx) with
      | some j0 =>
        have hsteq2 : st =
            { stS with pmap := fun x => if x = idx then some j0 else stS.pmap x } :=
          hsteq.trans (buildStep_occ pal oa stS idx j0 hlook)
        have hnext_eq : st.next = stS.next := by rw [hsteq2]
        have hpm_eq : st.pmap =
            fun x => if x = idx then some j0 else stS.pmap x := by rw [hsteq2]
        have hseen_eq : st.seen = stS.seen := by rw [hsteq2]
        have hagree : ∀ y, used1 y = true → st.pmap y = stS.pmap y := by
          intro y hy
          rw [hpm_eq]
          have hne : y ≠ idx := fun e => by
            rw [e, hu'] at hy
            cases hy
          simp [hne]
        have hmchar : ∀ x, used2' x = true ↔ x < st.next := by
          intro x
          rw [hIff x]
          constructor
          · rintro ⟨y, _, hpy⟩
            exact hg.value_lt_next hpy
          · intro hx
            rw [hnext_eq] at hx
            obtain ⟨i, hpi⟩ := hgS.surj x hx
            rcases hrelS.dom_from i x hpi with hcon | hmem
            · exact absurd rfl hcon
            · have hui : used1 i = true :=
                ((mem_trues_sortedCandidates pal used1 i).mp hmem).2
              refine ⟨i, hui, ?_⟩
              rw [hagree i hui]
              exact hpi
        obtain ⟨ws, hsub, hkeysS⟩ := buildRel_keys pal oa _ stS hrelS
        obtain ⟨hwclsS, hwlenS⟩ := keys_to_wcls pal oa stS hgS ws hkeysS
        have hwcls : ∀ j, j < st.next →
            classColor st j = effColor pal oa (ws.getD j 0) := by
          intro j hj
          rw [hnext_eq] at hj
          have hcc : classColor st j = classColor stS j := by
            unfold classColor
            rw [hseen_eq]
          rw [hcc]
          exact hwclsS j hj
        have hwlen : st.next ≤ ws.length := by
          rw [hnext_eq]
          exact hwlenS
        have hwpair : ws.Pairwise fun i i' => colorVal pal i ≤ colorVal pal i' :=
          (trues_sortedCandidates_pairwise pal used1).sublist hsub
        have hpmidx : st.pmap idx = some j0 := by
          rw [hpm_eq]
          simp
        have hj0lt : j0 < st.next := hg.value_lt_next hpmidx
        have hbind2 : (auxGet out.aux_headers "bKGD").bind List.head? =
            some j0 := by
          rw [haux2]
          exact bkgd_bind_out png.aux_headers st.pmap idx j0 hbkgd hpmidx
        have hc2 : candidateList out.aux_headers pal2 used2' =
            sortedCandidates pal2 used2' :=
          candidateList_of_used _ _ _ j0 hbind2 ((hmchar j0).mpr hj0lt)
        rw [hc2, hp2]
        exact trues_sorted_range _ used2' st.next hN hmchar
          (entry_key_mono pal oa st hg hpal8 st.next (le_refl _) ws hwcls hwlen
            hwpair)
      | none =>
        have hSle : stS.next ≤ 255 := by
          have hnd := trues_sortedCandidates_nodup pal used1
          have hlt : ∀ i ∈ trues (sortedCandidates pal used1), i < 256 :=
            fun i hi => ((mem_trues_sortedCandidates pal used1 i).mp hi).1
          have hnm : idx ∉ trues (sortedCandidates pal used1) := by
            intro hmem
            have h2 := ((mem_trues_sortedCandidates pal used1 idx).mp hmem).2
            rw [h2] at hu'
            cases hu'
          have hlen := list_length_le_of_lt_notmem _ 256 idx hnd hlt
            (hbk idx hbkgd) hnm
          have h1 := hrelS.next_le
          have h0 : initState.next = 0 := rfl
          omega
        have hM : stS.next % 256 = stS.next := Nat.mod_eq_of_lt (by omega)
        have hsteq2 : st =
            ⟨fun x => if x = idx then some (stS.next % 256) else stS.pmap x,
              stS.seen ++ [(effColor pal oa idx, stS.next % 256)],
              stS.next + 1⟩ :=
          hsteq.trans (buildStep_vac pal oa stS idx hlook)
        have hnext_eq : st.next = stS.next + 1 := by rw [hsteq2]
        have hpm_eq : st.pmap =
            fun x => if x = idx then some (stS.next % 256) else stS.pmap x := by
          rw [hsteq2]
        have hseen_eq : st.seen =
            stS.seen ++ [(effColor pal oa idx, stS.next % 256)] := by
          rw [hsteq2]
        have hagree : ∀ y, used1 y = true → st.pmap y = stS.pmap y := by
          intro y hy
          rw [hpm_eq]
          have hne : y ≠ idx := fun e => by
            rw [e, hu'] at hy
            cases hy
          simp [hne]
        have hmchar : ∀ x, used2' x = true ↔ x < stS.next := by
          intro x
          rw [hIff x]
          constructor
          · rintro ⟨y, hy, hpy⟩
            rw [hagree y hy] at hpy
            exact hgS.value_lt_next hpy
          · intro hx
            obtain ⟨i, hpi⟩ := hgS.surj x hx
            rcases hrelS.dom_from i x hpi with hcon | hmem
            · exact absurd rfl hcon
            · have hui : used1 i = true :=
                ((mem_trues_sortedCandidates pal used1 i).mp hmem).2
              refine ⟨i, hui, ?_⟩
              rw [hagree i hui]
              exact hpi
        obtain ⟨ws, hsub, hkeysS⟩ := buildRel_keys pal oa _ stS hrelS
        obtain ⟨hwclsS, hwlenS⟩ := keys_to_wcls pal oa stS hgS ws hkeysS
        have hwcls : ∀ j, j < stS.next →
            classColor st j = effColor pal oa (ws.getD j 0) := by
          intro j hj
          have hjlen : j < stS.seen.length := by
            rw [hgS.length_seen]
            exact hj
          rw [classColor_eq_of_seen_append st stS _ hseen_eq j hjlen]
          exact hwclsS j hj
        have hwpair : ws.Pairwise fun i i' => colorVal pal i ≤ colorVal pal i' :=
          (trues_sortedCandidates_pairwise pal used1).sublist hsub
        have hpmidx : st.pmap idx = some stS.next := by
          rw [hpm_eq]
          simp [hM]
        have hbind2 : (auxGet out.aux_headers "bKGD").bind List.head? =
            some stS.next := by
          rw [haux2]
          exact bkgd_bind_out png.aux_headers st.pmap idx stS.next hbkgd hpmidx
        have hu2m : used2' stS.next = false := by
          cases hC : used2' stS.next
          · rfl
          · exact absurd ((hmchar stS.next).mp hC) (lt_irrefl _)
        have hc2 : candidateList out.aux_headers pal2 used2' =
            sortedCandidates pal2 used2' ++ [(stS.next, true)] :=
          candidateList_of_unused _ _ _ stS.next hbind2 hu2m
        rw [hc2, trues_append]
        have h1 : trues [(stS.next, true)] = [stS.next] := by simp [trues]
        have h2 : trues (sortedCandidates pal2 used2') = List.range stS.next := by
          rw [hp2]
          exact trues_sorted_range _ used2' stS.next (by omega) hmchar
            (entry_key_mono pal oa st hg hpal8 stS.next (by omega) ws hwcls
              hwlenS hwpair)
        rw [h1, h2, hnext_eq, List.range_succ]

theorem palette_reduction_idempotent_witness :
    optimized_palette exampleOut false = none :=
  palette_reduction_idempotent examplePng false
    [⟨200, 0, 0, 255⟩, ⟨0, 0, 255, 255⟩] exampleOut rfl (by decide)
    (by decide)
    (by
      intro idx h
      have he : (auxGet examplePng.aux_headers "bKGD").bind List.head? =
          some 0 := by decide
      rw [he] at h
      obtain rfl := Option.some.inj h
      decide)
    (by decide) (by decide)
